import Mathlib

/-!
# Verification of Cassiopeia's distance-based solver and tree utilities

Shallow embedding of:
* `cassiopeia/solver/solver_utilities.py`
  (`annotate_ancestral_characters`, `collapse_edges`, `collapse_tree`),
* `cassiopeia/simulator/BirthDeathFitnessSimulator.py`
  (`collapse_unifurcations` on weighted networkx digraphs),
* `cassiopeia/solver/DistanceSolver.py`
  (`solve`, `setup_dissimilarity_map`, `__append_sample_names`).

Rooted trees handed to the solver utilities are modelled as rose trees,
where each node carries its networkx node identifier, the
`node_to_characters` / `"characters"` annotation, and its ordered
successor list.  The undirected solver graph is modelled as explicit
node and edge lists, mirroring `networkx.Graph` insertion order.
-/

set_option maxHeartbeats 1000000
set_option linter.unusedSectionVars false

namespace Cassiopeia

/-- Rose tree modelling a networkx `DiGraph` rooted tree whose node `id`
carries its annotation (`node_to_characters[id]` / the `"characters"`
attribute) as `chars`, and whose successor list is `children`. -/
inductive CTree where
  | node (id : Nat) (chars : List Int) (children : List CTree)

namespace CTree

def id : CTree → Nat
  | .node i _ _ => i

def chars : CTree → List Int
  | .node _ c _ => c

def children : CTree → List CTree
  | .node _ _ cs => cs

mutual
def hasDecEq : (a b : CTree) → Decidable (Eq a b)
  | .node ia ca csa, .node ib cb csb =>
    match decEq ia ib with
    | isFalse h => isFalse (by simp only [node.injEq, not_and]; intro hh; exact absurd hh h)
    | isTrue hi =>
      match decEq ca cb with
      | isFalse h => isFalse (by simp only [node.injEq, not_and]; intro _ hh; exact absurd hh h)
      | isTrue hc =>
        match hasDecEqList csa csb with
        | isFalse h => isFalse (by
            simp only [node.injEq, not_and]
            intro _ _ hh
            exact absurd hh h)
        | isTrue hcs => isTrue (by rw [hi, hc, hcs])
def hasDecEqList : (as bs : List CTree) → Decidable (Eq as bs)
  | [], [] => isTrue rfl
  | _ :: _, [] => isFalse (by intro h; exact List.noConfusion h)
  | [], _ :: _ => isFalse (by intro h; exact List.noConfusion h)
  | a :: as, b :: bs =>
    match hasDecEq a b with
    | isFalse h => isFalse (fun hh => List.noConfusion hh (fun h1 _ => absurd h1 h))
    | isTrue h1 =>
      match hasDecEqList as bs with
      | isFalse h => isFalse (fun hh => List.noConfusion hh (fun _ h2 => absurd h2 h))
      | isTrue h2 => isTrue (h1 ▸ h2 ▸ rfl)
end

instance : DecidableEq CTree := hasDecEq

theorem sizeOf_lt_of_mem {c : CTree} {cs : List CTree} (h : c ∈ cs) :
    sizeOf c < sizeOf cs := by
  induction cs with
  | nil => cases h
  | cons d ds ih =>
    cases h with
    | head => simp; omega
    | tail _ h2 =>
      have := ih h2
      simp
      omega

theorem sizeOf_children_lt (i : Nat) (ch : List Int) (cs : List CTree) {c : CTree}
    (h : c ∈ cs) : sizeOf c < sizeOf (CTree.node i ch cs) := by
  have := sizeOf_lt_of_mem h
  simp
  omega

/-- Induction principle for `CTree` descending into list members. -/
theorem myInduction (P : CTree → Prop)
    (h : ∀ i ch cs, (∀ c ∈ cs, P c) → P (.node i ch cs)) : ∀ t, P t := by
  intro t
  induction t using WellFounded.induction (r := fun a b : CTree => sizeOf a < sizeOf b)
    (sizeOfWFRel.wf) with
  | _ t ih =>
    cases t with
    | node i ch cs =>
      exact h i ch cs (fun c hc => ih c (sizeOf_children_lt i ch cs hc))

end CTree

/-- `Modelled from the spec:` `get_lca_characters` lives in
`cassiopeia.data.utilities`, which is not among the provided sources.  Per
the spec's ancestral-reconstruction rule, site `s` of the result is the
single non-ancestral symbol shared by all input vectors whose state at
`s` is not the missing symbol, when such a unanimous non-ancestral symbol
exists, and the ancestral symbol `0` otherwise.  The site count is taken
from the first vector. -/
def get_lca_characters (vecs : List (List Int)) (missing_char : Int) : List Int :=
  (List.range (vecs.headD []).length).map fun s =>
    match (vecs.map (fun v => v.getD s 0)).filter (fun x => x ≠ missing_char) with
    | [] => 0
    | c :: rest => if rest.all (fun x => x = c) ∧ c ≠ 0 then c else 0

mutual
/-- Embedding of `solver_utilities.annotate_ancestral_characters`: returns
at a node of out-degree 0 (leaving the leaf annotation untouched);
otherwise recurses into every successor first and then annotates the node
with the LCA of the recursively resolved daughter character vectors.
`annotate_children` is the `for i in T.successors(node)` loop. -/
def annotate_ancestral_characters (missing_char : Int) : CTree → CTree
  | .node i ch [] => .node i ch []
  | .node i _ch (c :: cs) =>
    let cs' := annotate_children missing_char (c :: cs)
    .node i (get_lca_characters (cs'.map CTree.chars) missing_char) cs'
def annotate_children (missing_char : Int) : List CTree → List CTree
  | [] => []
  | c :: cs =>
    annotate_ancestral_characters missing_char c :: annotate_children missing_char cs
end

mutual
/-- Embedding of `solver_utilities.collapse_edges`: returns at out-degree
0; otherwise, for each successor of positive out-degree, first collapses
its subtree and, if its character vector equals the current node's,
reattaches its (collapsed) children to the current node and marks it for
removal.  `collapse_edges_flags` performs the successor loop, pairing
each processed successor with its removal flag; networkx keeps surviving
successors in insertion order and appends the reattached grandchildren,
which the result list mirrors. -/
def collapse_edges : CTree → CTree
  | .node i ch [] => .node i ch []
  | .node i ch (c :: cs) =>
    let processed := collapse_edges_flags ch (c :: cs)
    .node i ch
      ((processed.filter (fun p => ¬ p.2)).map Prod.fst ++
        ((processed.filter (fun p => p.2)).map Prod.fst).flatMap CTree.children)
def collapse_edges_flags (ch : List Int) : List CTree → List (CTree × Bool)
  | [] => []
  | c :: cs =>
    (if c.children = [] then (c, false)
     else
       let c' := collapse_edges c
       (c', decide (c'.chars = ch))) :: collapse_edges_flags ch cs
end

mutual
/-- The leaf-annotation loop of `collapse_tree`'s inference path: every
leaf's `chars` is overwritten with its row of the character matrix (a
total map from leaf identifier to state vector); internal annotations
are left as they are (they are recomputed by
`annotate_ancestral_characters` afterwards). -/
def set_leaf_chars (character_matrix : Nat → List Int) : CTree → CTree
  | .node i _ [] => .node i (character_matrix i) []
  | .node i ch (c :: cs) =>
    .node i ch (set_leaf_chars_list character_matrix (c :: cs))
def set_leaf_chars_list (character_matrix : Nat → List Int) : List CTree → List CTree
  | [] => []
  | c :: cs => set_leaf_chars character_matrix c :: set_leaf_chars_list character_matrix cs
end

/-- Embedding of `solver_utilities.collapse_tree`.  The tree's existing
`chars` fields play the role of the `"characters"` node attributes read
when `infer_ancestral_characters` is false.  On the inference path the
leaf annotations are first overwritten from the character matrix, the
internal nodes are annotated bottom-up, and then mutationless edges are
collapsed from the root.  Raises `InferAncestorError` (modelled as
`Except.error ()`) when inference is requested without both a character
matrix and a missing character. -/
def collapse_tree (tree : CTree) (infer_ancestral_characters : Bool)
    (character_matrix : Option (Nat → List Int)) (missing_char : Option Int) :
    Except Unit CTree :=
  if infer_ancestral_characters then
    match character_matrix, missing_char with
    | some cm, some mc =>
      .ok (collapse_edges (annotate_ancestral_characters mc (set_leaf_chars cm tree)))
    | _, _ => .error ()
  else
    .ok (collapse_edges tree)

mutual
/-- All subtrees of a tree (the tree itself first, then recursively the
subtrees of each successor, in order). -/
def subtrees : CTree → List CTree
  | .node i ch cs => .node i ch cs :: subtrees_list cs
def subtrees_list : List CTree → List CTree
  | [] => []
  | c :: cs => subtrees c ++ subtrees_list cs
end

/-!
## Weighted trees and `BirthDeathFitnessSimulator.collapse_unifurcations`

The simulator's trees are networkx `DiGraph`s whose edges carry a
`weight` attribute.  A rooted weighted tree is modelled as a rose tree
whose node stores the list of (edge weight, subtree) pairs to its
successors, in successor order.
-/

/-- Weighted rooted tree: node identifier plus weighted successor list. -/
inductive WTree where
  | node (id : Nat) (children : List (Rat × WTree))

namespace WTree

def id : WTree → Nat
  | .node i _ => i

def children : WTree → List (Rat × WTree)
  | .node _ cs => cs

theorem wSizeOf_lt_of_mem {p : Rat × WTree} {cs : List (Rat × WTree)} (h : p ∈ cs) :
    sizeOf p.2 < sizeOf cs := by
  induction cs with
  | nil => cases h
  | cons d ds ih =>
    cases h with
    | head => cases p with | mk w t => simp; omega
    | tail _ h2 =>
      have := ih h2
      simp
      omega

theorem wSizeOf_children_lt (i : Nat) (cs : List (Rat × WTree)) {p : Rat × WTree}
    (h : p ∈ cs) : sizeOf p.2 < sizeOf (WTree.node i cs) := by
  have := wSizeOf_lt_of_mem h
  simp
  omega

/-- Induction principle for `WTree` descending into list members. -/
theorem wMyInduction (P : WTree → Prop)
    (h : ∀ i cs, (∀ p ∈ cs, P p.2) → P (.node i cs)) : ∀ t, P t := by
  intro t
  induction t using WellFounded.induction (r := fun a b : WTree => sizeOf a < sizeOf b)
    (sizeOfWFRel.wf) with
  | _ t ih =>
    cases t with
    | node i cs =>
      exact h i cs (fun p hp => ih p.2 (wSizeOf_children_lt i cs hp))

end WTree

mutual
/-- Embedding of the inner `_collapse_unifurcations(tree, node, parent)`
of `BirthDeathFitnessSimulator.collapse_unifurcations`.  `w` is the
weight of the current parent→node edge.  If the node has exactly one
successor, the parent is bridged straight to that successor with the two
weights summed, the recursion continues from the successor with the same
parent, and the node is removed; otherwise the node survives and the
recursion descends into each successor (`collapseUnifList`).  The call
returns the single (weight, subtree) edge that ends up replacing the
parent→node edge. -/
def collapseUnifFrom : Rat → WTree → Rat × WTree
  | w, .node i [] => (w, .node i [])
  | w, .node _ [(w', t')] => collapseUnifFrom (w + w') t'
  | w, .node i (p :: q :: ps) => (w, .node i (collapseUnifList (p :: q :: ps)))
def collapseUnifList : List (Rat × WTree) → List (Rat × WTree)
  | [] => []
  | (w, t) :: ps => collapseUnifFrom w t :: collapseUnifList ps
end

/-- Embedding of `BirthDeathFitnessSimulator.collapse_unifurcations`
started at the traversal source: every successor subtree is collapsed
recursively; afterwards, if the source is left with exactly one
successor, that successor is deleted and each of its out-edges is
reattached to the source with the two weights summed — even when the
successor has no out-edges at all (a leaf), in which case the source
simply loses it. -/
def collapse_unifurcations (t : WTree) : WTree :=
  match t with
  | .node i cs =>
    match collapseUnifList cs with
    | [(w, s)] => .node i (s.children.map (fun q => (w + q.1, q.2)))
    | cs' => .node i cs'

mutual
/-- Root-to-leaf distances: the list of (leaf identifier, sum of edge
weights on the path from the root) pairs, in traversal order. -/
def leafDepths : WTree → List (Nat × Rat)
  | .node i [] => [(i, 0)]
  | .node _ (p :: ps) => leafDepthsList (p :: ps)
def leafDepthsList : List (Rat × WTree) → List (Nat × Rat)
  | [] => []
  | (w, t) :: ps => (leafDepths t).map (fun q => (q.1, q.2 + w)) ++ leafDepthsList ps
end

/-!
## `DistanceSolver`

Node labels live in an arbitrary type `L` with decidable equality; the
Python `str(...)` applied to integer node counts is abstracted as a
function `nameOf : Nat → L`.  The pluggable subclass hooks
(`find_cherry`, `update_dissimilarity_map`) form a `Variant`.
-/

/-- A pandas dissimilarity `DataFrame`: its index (row/column labels, in
order) and its numeric entries by position. -/
structure DMap (L : Type) where
  labels : List L
  entries : Nat → Nat → Rat

/-- The subclass hooks of `DistanceSolver`: `find_cherry` receives the
numpy matrix (entries and dimension) and returns two row indices;
`update_dissimilarity_map` receives the current map, the joined cherry
and the new node's name and returns the updated map. -/
structure Variant (L : Type) where
  find_cherry : (Nat → Nat → Rat) → Nat → Nat × Nat
  update_dissimilarity_map : DMap L → L × L → L → DMap L

/-- A `networkx.Graph`: node list and undirected edge list, both in
insertion order. -/
structure UGraph (L : Type) where
  nodes : List L
  edges : List (L × L)
  deriving DecidableEq

variable {L : Type} [DecidableEq L] [Inhabited L]

/-- Number of edges incident to `l` (no self-loops arise below). -/
def degree (g : UGraph L) (l : L) : Nat :=
  g.edges.countP (fun e => decide (e.1 = l ∨ e.2 = l))

/-- The `while N > 2` merge loop of `DistanceSolver.solve`: pick a cherry
by index, join the two corresponding labels under a fresh node named
after the current node count, and let the variant rebuild the map.  The
fuel bounds the iteration count; `solve_unrooted` passes the initial `N`,
which suffices whenever the variant shrinks the map each step. -/
def solveLoop (V : Variant L) (nameOf : Nat → L) :
    Nat → UGraph L × DMap L → UGraph L × DMap L
  | 0, gm => gm
  | fuel + 1, (g, m) =>
    if m.labels.length > 2 then
      let ij := V.find_cherry m.entries m.labels.length
      let node_i := m.labels.getD ij.1 default
      let node_j := m.labels.getD ij.2 default
      let new_node_name := nameOf g.nodes.length
      let g' : UGraph L := ⟨g.nodes ++ [new_node_name],
        g.edges ++ [(new_node_name, node_i), (new_node_name, node_j)]⟩
      let m' := V.update_dissimilarity_map m (node_i, node_j) new_node_name
      solveLoop V nameOf fuel (g', m')
    else (g, m)

/-- The `identifier_to_sample` dictionary of `solve`, as a function: maps
`nameOf i` to the `i`-th original label for `i < N` and leaves every
other label unchanged. -/
def identifier_to_sample (nameOf : Nat → L) (labels : List L) (l : L) : L :=
  match (List.range labels.length).find? (fun i => decide (nameOf i = l)) with
  | some i => labels.getD i l
  | none => l

/-- `networkx.relabel_nodes`: map every node and edge endpoint, merging
nodes that collide. -/
def relabelGraph (f : L → L) (g : UGraph L) : UGraph L :=
  ⟨(g.nodes.map f).dedup, g.edges.map (fun e => (f e.1, f e.2))⟩

/-- `DistanceSolver.solve` up to (but not including) the optional rooting
step: run the merge loop starting from the leaf-only graph over the map's
labels, join the two remaining active nodes directly with a single edge,
and relabel with `identifier_to_sample`. -/
def solve_unrooted (V : Variant L) (nameOf : Nat → L) (dissimilarity_map : DMap L) :
    UGraph L :=
  let N := dissimilarity_map.labels.length
  let gm := solveLoop V nameOf N (⟨dissimilarity_map.labels, []⟩, dissimilarity_map)
  let remaining := gm.2.labels
  let g1 : UGraph L := ⟨gm.1.nodes,
    gm.1.edges ++ [(remaining.getD 0 default, remaining.getD 1 default)]⟩
  relabelGraph (identifier_to_sample nameOf dissimilarity_map.labels) g1

/-- The `CassiopeiaTree` handle as consumed by the solver: its character
matrix (rows in order), its nullable root sample name, and its optional
precomputed dissimilarity map. -/
structure CasTree (L : Type) where
  character_matrix : List (L × List Int)
  root_sample_name : Option L
  dissimilarity_map : Option (DMap L)

/-- The `DistanceSolver` construction arguments that matter here. -/
structure Solver where
  dissimilarity_function : Option (List Int → List Int → Rat)
  add_root : Bool

/-- `Modelled from the spec:` `CassiopeiaTree.compute_dissimilarity_map`
lives in `cassiopeia.data`, which is not among the provided sources.  Per
the spec's interface it computes the pairwise dissimilarity table over
the character-matrix rows with the supplied function; the table is
indexed by the row names. -/
def compute_dissimilarity_map (fn : List Int → List Int → Rat)
    (cm : List (L × List Int)) : DMap L :=
  ⟨cm.map Prod.fst,
   fun i j => fn ((cm.map Prod.snd).getD i []) ((cm.map Prod.snd).getD j [])⟩

/-- Embedding of `DistanceSolver.setup_dissimilarity_map`.  The result
carries the final handle state on both outcomes: `.error t'` models a
raised `DistanceSolverError` with the handle left in state `t'`.  When no
root sample is set and `add_root` holds, the implicit all-zero root row
is appended and the root name set *before* the missing-function check, so
those mutations survive that failure. -/
def setup_dissimilarity_map (rootLabel : L) (s : Solver) (t : CasTree L) :
    Except (CasTree L) (CasTree L) :=
  let character_matrix := t.character_matrix
  if t.root_sample_name = none ∧ s.add_root then
    let root := List.replicate (character_matrix.headD (rootLabel, [])).2.length (0 : Int)
    let cm' := character_matrix ++ [(rootLabel, root)]
    let t1 : CasTree L :=
      { t with character_matrix := cm', root_sample_name := some rootLabel }
    match s.dissimilarity_function with
    | none => .error t1
    | some fn =>
      .ok { t1 with dissimilarity_map := some (compute_dissimilarity_map fn cm') }
  else
    match t.dissimilarity_map with
    | some _ => .ok t
    | none =>
      match s.dissimilarity_function with
      | none => .error t
      | some fn =>
        .ok { t with dissimilarity_map := some (compute_dissimilarity_map fn character_matrix) }

/-- `DistanceSolver.solve` up to rooting (`root_tree` is an abstract
subclass method in the source): set up the dissimilarity map, then run
the merge loop on it.  Returns the handle state alongside the unrooted
graph, or the handle state at the point of failure. -/
def solve (rootLabel : L) (s : Solver) (V : Variant L) (nameOf : Nat → L)
    (t : CasTree L) : Except (CasTree L) (UGraph L × CasTree L) :=
  match setup_dissimilarity_map rootLabel s t with
  | .error t' => .error t'
  | .ok t' =>
    match t'.dissimilarity_map with
    | none => .error t'
    | some m => .ok (solve_unrooted V nameOf m, t')

/-- Embedding of `DistanceSolver.__append_sample_names`: for every leaf
(degree-1 node) of the solution that appears in the state-to-sample
mapping, attach each mapped sample name other than the leaf's own label
as a new child of the leaf (`networkx.add_edges_from`, which also inserts
missing endpoint nodes and ignores already-present edges). -/
def append_sample_names (solution : UGraph L)
    (state_to_sample_mapping : L → Option (List L)) : UGraph L :=
  let leaves := solution.nodes.filter (fun n => decide (degree solution n = 1))
  leaves.foldl (fun g l =>
    match state_to_sample_mapping l with
    | none => g
    | some samples0 =>
      let samples := samples0.filter (fun s => decide (s ≠ l))
      samples.foldl (fun g2 s =>
        ⟨if s ∈ g2.nodes then g2.nodes else g2.nodes ++ [s],
         if (l, s) ∈ g2.edges ∨ (s, l) ∈ g2.edges then g2.edges
         else g2.edges ++ [(l, s)]⟩) g) solution

/-!
## Helper notions used by the theorems
-/

/-- Whether a call raised (`Except.error`). -/
def raises {ε α : Type} : Except ε α → Bool
  | .error _ => true
  | .ok _ => false

/-- The handle state after `setup_dissimilarity_map`, on either outcome. -/
def stateAfter : Except (CasTree L) (CasTree L) → CasTree L
  | .error t => t
  | .ok t => t

mutual
/-- All node identifiers of a tree, root first, then per subtree. -/
def ids : CTree → List Nat
  | .node i _ cs => i :: idsList cs
def idsList : List CTree → List Nat
  | [] => []
  | c :: cs => ids c ++ idsList cs
end

mutual
/-- The node identifiers that survive `collapse_edges`, predicted by the
static rule of the claim: a non-root node is removed exactly when it has
positive out-degree and its character vector equals its parent's
(`pchars`); all other nodes are kept.  The rule is applied to every node
against its original parent. -/
def keptUnder (pchars : List Int) : CTree → List Nat
  | .node i ch cs =>
    (if cs ≠ [] ∧ ch = pchars then [] else [i]) ++ keptUnderList ch cs
def keptUnderList (pchars : List Int) : List CTree → List Nat
  | [] => []
  | c :: cs => keptUnder pchars c ++ keptUnderList pchars cs
end

/-- The kept identifiers of a whole tree: the root is never removed, and
every other node follows the static removal rule of `keptUnder`. -/
def keptIds : CTree → List Nat
  | .node i ch cs => i :: keptUnderList ch cs

/-- No mutationless edge anywhere: no node has a positive-out-degree
child whose character vector equals its own. -/
def GoodTree (t : CTree) : Prop :=
  ∀ u ∈ subtrees t, ∀ c ∈ u.children, c.children ≠ [] → c.chars ≠ u.chars

/-- The handle state at the point of a `solve` failure, if any. -/
def solveErrState : Except (CasTree L) (UGraph L × CasTree L) → Option (CasTree L)
  | .error t => some t
  | .ok _ => none

/-- The unrooted graph produced by a successful `solve`, if any. -/
def solveGraphOf : Except (CasTree L) (UGraph L × CasTree L) → Option (UGraph L)
  | .ok (g, _) => some g
  | .error _ => none

/-- A concrete variant over `Nat` labels used to instantiate the solver
theorems: the cherry is always the first two rows, and the update keeps
the remaining labels and prepends the new node. -/
def exVariant : Variant Nat :=
  ⟨fun _ _ => (0, 1),
   fun m c n => ⟨n :: (m.labels.erase c.1).erase c.2, m.entries⟩⟩

/-- Concrete synthesized-name scheme for the instantiations. -/
def exNameOf : Nat → Nat := fun k => 100 + k

/-- A handle whose samples 1 and 2 carry identical character vectors,
with a precomputed dissimilarity map over all four samples. -/
def exDupTree : CasTree Nat :=
  ⟨[(1, [1, 0]), (2, [1, 0]), (3, [2, 2]), (4, [3, 3])], none,
    some ⟨[1, 2, 3, 4], fun _ _ => 0⟩⟩

/-- Loop invariant of `solveLoop` after `k` merges over original labels
`samples`: the graph holds the samples plus the `k` synthesized node
names; the active set is the map's index, without duplicates, of size
`samples.length − k` (and at least 2); active original samples are
isolated, active synthesized nodes carry exactly their two child edges,
merged nodes carry one extra parent edge; and every edge's second
endpoint is a merged (inactive) node. -/
structure SolveInv (samples : List L) (nameOf : Nat → L) (g : UGraph L)
    (m : DMap L) (k : Nat) : Prop where
  nodes_eq : g.nodes = samples ++
    (List.range k).map (fun j => nameOf (samples.length + j))
  labels_nodup : m.labels.Nodup
  labels_len : k + m.labels.length = samples.length
  labels_ge : 2 ≤ m.labels.length
  labels_sub : ∀ l ∈ m.labels, l ∈ g.nodes
  sample_deg : ∀ s ∈ samples, degree g s = if s ∈ m.labels then 0 else 1
  created_deg : ∀ j < k, degree g (nameOf (samples.length + j)) =
    if nameOf (samples.length + j) ∈ m.labels then 2 else 3
  edges_ok : ∀ e ∈ g.edges, e.1 ∈ g.nodes ∧ e.2 ∈ g.nodes ∧ e.2 ∉ m.labels

/-!
## Theorems
-/

/-- **C7.** `setup_dissimilarity_map` raises a `DistanceSolverError` if
and only if, at setup, either no dissimilarity function is supplied and
the handle has no precomputed dissimilarity map, or a root is requested
(`add_root` with no designated root sample) without a dissimilarity
function with which to add the implicit all-zero root row; in all other
cases setup succeeds without raising. -/
theorem setup_raises_iff (rootLabel : L) (s : Solver) (t : CasTree L) :
    raises (setup_dissimilarity_map rootLabel s t) = true ↔
      ((s.dissimilarity_function = none ∧ t.dissimilarity_map = none) ∨
        (s.add_root = true ∧ t.root_sample_name = none ∧
          s.dissimilarity_function = none)) := by
  unfold setup_dissimilarity_map
  by_cases h1 : t.root_sample_name = none ∧ s.add_root = true
  · cases hf : s.dissimilarity_function with
    | none => simp [h1.1, h1.2, hf, raises]
    | some fn => simp [h1.1, h1.2, hf, raises]
  · rw [if_neg (by simpa using h1)]
    cases hm : t.dissimilarity_map with
    | some m =>
      cases hf : s.dissimilarity_function with
      | none =>
        simp [hm, hf, raises]
        tauto
      | some fn => simp [hm, hf, raises]
    | none =>
      cases hf : s.dissimilarity_function with
      | none => simp [hm, hf, raises]
      | some fn => simp [hm, hf, raises]

/-- **C7 witness.** At a handle with no function, no map and no root
request, setup raises. -/
theorem setup_raises_iff_witness :
    raises (setup_dissimilarity_map (0 : Nat) ⟨none, false⟩
      ⟨[(1, [1, 0])], none, none⟩) = true :=
  (setup_raises_iff 0 ⟨none, false⟩ ⟨[(1, [1, 0])], none, none⟩).mpr
    (Or.inl ⟨rfl, rfl⟩)

/-- **C8 counterexample.** On the implicit-root failure path the handle
is already modified when the error is raised: with `add_root`, no
designated root and no dissimilarity function, `solve` raises, yet the
handle's `root_sample_name` has been set and its character matrix has
grown an all-zero root row. -/
theorem solve_failure_mutates_handle :
    raises (solve (0 : Nat) ⟨none, true⟩ exVariant exNameOf
        ⟨[(1, [1, 0]), (2, [0, 2])], none, none⟩) = true ∧
    (solveErrState (solve (0 : Nat) ⟨none, true⟩ exVariant exNameOf
        ⟨[(1, [1, 0]), (2, [0, 2])], none, none⟩)).map CasTree.root_sample_name =
      some (some 0) ∧
    (solveErrState (solve (0 : Nat) ⟨none, true⟩ exVariant exNameOf
        ⟨[(1, [1, 0]), (2, [0, 2])], none, none⟩)).map CasTree.character_matrix =
      some [(1, [1, 0]), (2, [0, 2]), (0, [0, 0])] := by
  refine ⟨rfl, rfl, rfl⟩

/-- **C8 amended.** On the failure path that does not request an implicit
root (no function and no precomputed map, with either a designated root
or `add_root` off), the handle is left unmodified; the implicit-root
failure path instead mutates the handle before raising (see the
counterexample). -/
theorem setup_failure_state_unchanged (rootLabel : L) (s : Solver)
    (t : CasTree L) (hnr : ¬ (t.root_sample_name = none ∧ s.add_root = true))
    (hra : raises (setup_dissimilarity_map rootLabel s t) = true) :
    stateAfter (setup_dissimilarity_map rootLabel s t) = t := by
  unfold setup_dissimilarity_map at hra ⊢
  rw [if_neg (by simpa using hnr)] at hra ⊢
  cases hm : t.dissimilarity_map with
  | some m => simp [hm, raises] at hra
  | none =>
    cases hf : s.dissimilarity_function with
    | none => simp [hm, hf, stateAfter]
    | some fn => simp [hm, hf, raises] at hra

/-- **C8 amended witness.** Concrete no-function, no-map, no-root-request
failure leaves the handle untouched. -/
theorem setup_failure_state_unchanged_witness :
    stateAfter (setup_dissimilarity_map (0 : Nat) ⟨none, false⟩
        ⟨[(1, [1, 0])], none, none⟩) = ⟨[(1, [1, 0])], none, none⟩ :=
  setup_failure_state_unchanged 0 ⟨none, false⟩ ⟨[(1, [1, 0])], none, none⟩
    (by simp) rfl

/-- **C9 counterexample.** `collapse_tree` raises `InferAncestorError`
when inference is requested without a character matrix even though every
node of the input tree (internal nodes included) already carries an
annotation, contradicting the claim's "while internal annotations are
not already present" qualification. -/
theorem collapse_tree_raises_despite_annotations :
    collapse_tree (.node 0 [0, 0] [.node 1 [1, 0] [], .node 2 [0, 2] []])
      true none (some (-1)) = Except.error () := rfl

/-- **C9 amended.** `collapse_tree` raises `InferAncestorError` exactly
when ancestral-character inference is requested and the character matrix
or the missing-state symbol is absent, regardless of existing
annotations; when inference is not requested, or both arguments are
supplied, no error is raised. -/
theorem collapse_tree_raises_iff (t : CTree) (infer : Bool)
    (cm : Option (Nat → List Int)) (mc : Option Int) :
    raises (collapse_tree t infer cm mc) = true ↔
      (infer = true ∧ (cm = none ∨ mc = none)) := by
  unfold collapse_tree
  cases infer with
  | false => simp [raises]
  | true =>
    cases cm with
    | none => simp [raises]
    | some m =>
      cases mc with
      | none => simp [raises]
      | some c => simp [raises]

/-- **C2 (code evaluation).** With samples 1 and 2 carrying identical
character vectors, setup succeeds and keeps both rows in the
dissimilarity map (no deduplication happens anywhere in `solve`), and
the solved tree contains 2·4−2 = 6 nodes with samples 1 and 2 as
separate degree-1 leaves and no edge between them — no duplicate is
attached beneath a representative leaf.  The dead
`__append_sample_names` would have added exactly that edge had `solve`
invoked it. -/
theorem solve_keeps_duplicate_rows :
    raises (setup_dissimilarity_map 0 ⟨none, false⟩ exDupTree) = false ∧
    ((stateAfter (setup_dissimilarity_map 0 ⟨none, false⟩ exDupTree)).dissimilarity_map.map
        DMap.labels = some [1, 2, 3, 4]) ∧
    solveGraphOf (solve 0 ⟨none, false⟩ exVariant exNameOf exDupTree) =
      some ⟨[1, 2, 3, 4, 104, 105],
        [(104, 1), (104, 2), (105, 104), (105, 3), (105, 4)]⟩ ∧
    degree (⟨[1, 2, 3, 4, 104, 105],
        [(104, 1), (104, 2), (105, 104), (105, 3), (105, 4)]⟩ : UGraph Nat) 1 = 1 ∧
    degree (⟨[1, 2, 3, 4, 104, 105],
        [(104, 1), (104, 2), (105, 104), (105, 3), (105, 4)]⟩ : UGraph Nat) 2 = 1 ∧
    (1, 2) ∉ (⟨[1, 2, 3, 4, 104, 105],
        [(104, 1), (104, 2), (105, 104), (105, 3), (105, 4)]⟩ : UGraph Nat).edges ∧
    (2, 1) ∉ (⟨[1, 2, 3, 4, 104, 105],
        [(104, 1), (104, 2), (105, 104), (105, 3), (105, 4)]⟩ : UGraph Nat).edges ∧
    (1, 2) ∈ (append_sample_names
        (⟨[1, 2, 3, 4, 104, 105],
          [(104, 1), (104, 2), (105, 104), (105, 3), (105, 4)]⟩ : UGraph Nat)
        (fun l => if l = 1 then some [1, 2] else none)).edges := by
  refine ⟨rfl, rfl, by decide, by decide, by decide, by decide, by decide, by decide⟩

/-! ### Shared lemmas about `subtrees` and `annotate_ancestral_characters` -/

theorem annotate_children_eq_map (m : Int) (cs : List CTree) :
    annotate_children m cs = cs.map (annotate_ancestral_characters m) := by
  induction cs with
  | nil => rfl
  | cons c cs ih => simp [annotate_children, ih]

theorem annotate_node_cons (m : Int) (i : Nat) (ch : List Int) (c0 : CTree)
    (cs : List CTree) :
    annotate_ancestral_characters m (.node i ch (c0 :: cs)) =
      .node i
        (get_lca_characters
          (((c0 :: cs).map (annotate_ancestral_characters m)).map CTree.chars) m)
        ((c0 :: cs).map (annotate_ancestral_characters m)) := by
  rw [annotate_ancestral_characters]
  rw [annotate_children_eq_map]

theorem subtrees_list_eq (cs : List CTree) : subtrees_list cs = cs.flatMap subtrees := by
  induction cs with
  | nil => rfl
  | cons c cs ih => simp [subtrees_list, ih]

theorem mem_subtrees_node {u : CTree} {i : Nat} {ch : List Int} {cs : List CTree} :
    u ∈ subtrees (.node i ch cs) ↔ u = .node i ch cs ∨ ∃ c ∈ cs, u ∈ subtrees c := by
  rw [subtrees, subtrees_list_eq]
  simp

theorem self_mem_subtrees (t : CTree) : t ∈ subtrees t := by
  cases t with
  | node i ch cs => exact mem_subtrees_node.mpr (Or.inl rfl)

theorem mem_subtrees_of_child {u c t : CTree} (hc : c ∈ t.children)
    (hu : u ∈ subtrees c) : u ∈ subtrees t := by
  cases t with
  | node i ch cs => exact mem_subtrees_node.mpr (Or.inr ⟨c, hc, hu⟩)

theorem get_lca_getD (vecs : List (List Int)) (m : Int) (s : Nat)
    (hs : s < (vecs.headD []).length) :
    (get_lca_characters vecs m).getD s 0 =
      (match (vecs.map (fun w => w.getD s 0)).filter (fun x => decide (x ≠ m)) with
        | [] => (0 : Int)
        | c :: rest => if rest.all (fun x => decide (x = c)) ∧ c ≠ 0 then c else 0) := by
  unfold get_lca_characters
  rw [List.getD_eq_getElem _ _ (by simpa using hs)]
  simp

theorem get_lca_length (vecs : List (List Int)) (m : Int) :
    (get_lca_characters vecs m).length = (vecs.headD []).length := by
  unfold get_lca_characters
  simp

theorem lca_site_unanimous (vecs : List (List Int)) (m : Int) (s : Nat)
    (hs : s < (vecs.headD []).length) (v : Int)
    (hv : v ∈ (vecs.map (fun w => w.getD s 0)).filter (fun x => decide (x ≠ m)))
    (hall : ∀ x ∈ (vecs.map (fun w => w.getD s 0)).filter (fun x => decide (x ≠ m)), x = v)
    (h0 : v ≠ 0) :
    (get_lca_characters vecs m).getD s 0 = v := by
  rw [get_lca_getD vecs m s hs]
  cases hfl : (vecs.map (fun w => w.getD s 0)).filter (fun x => decide (x ≠ m)) with
  | nil => rw [hfl] at hv; cases hv
  | cons c rest =>
    rw [hfl] at hv hall
    have hc : c = v := hall c (List.mem_cons_self c rest)
    have hrest : rest.all (fun x => decide (x = c)) = true := by
      rw [List.all_eq_true]
      intro x hx
      simp [hall x (List.mem_cons_of_mem c hx), hc]
    show (if (rest.all fun x => decide (x = c)) = true ∧ c ≠ 0 then c else 0) = v
    rw [if_pos ⟨hrest, by rw [hc]; exact h0⟩]
    exact hc

theorem lca_site_fallback (vecs : List (List Int)) (m : Int) (s : Nat)
    (hs : s < (vecs.headD []).length)
    (hno : ¬ ∃ v, v ∈ (vecs.map (fun w => w.getD s 0)).filter (fun x => decide (x ≠ m)) ∧
      v ≠ 0 ∧
      ∀ x ∈ (vecs.map (fun w => w.getD s 0)).filter (fun x => decide (x ≠ m)), x = v) :
    (get_lca_characters vecs m).getD s 0 = 0 := by
  rw [get_lca_getD vecs m s hs]
  cases hfl : (vecs.map (fun w => w.getD s 0)).filter (fun x => decide (x ≠ m)) with
  | nil => rfl
  | cons c rest =>
    rw [hfl] at hno
    show (if (rest.all fun x => decide (x = c)) = true ∧ c ≠ 0 then c else 0) = 0
    by_cases hif : rest.all (fun x => decide (x = c)) = true ∧ c ≠ 0
    · exfalso
      apply hno
      refine ⟨c, List.mem_cons_self c rest, hif.2, ?_⟩
      intro x hx
      rcases List.mem_cons.mp hx with h | h
      · exact h
      · have := List.all_eq_true.mp hif.1 x h
        simpa using this
    · rw [if_neg hif]

/-- Internal-node annotation invariant produced by
`annotate_ancestral_characters`. -/
theorem annotate_internal_lca (m : Int) :
    ∀ t, ∀ u ∈ subtrees (annotate_ancestral_characters m t),
      u.children ≠ [] →
      u.chars = get_lca_characters (u.children.map CTree.chars) m := by
  intro t
  induction t using CTree.myInduction with
  | _ i ch cs ih =>
    cases cs with
    | nil =>
      intro u hu hne
      rw [annotate_ancestral_characters] at hu
      rcases mem_subtrees_node.mp hu with h | ⟨c, hc, _⟩
      · rw [h] at hne
        simp [CTree.children] at hne
      · cases hc
    | cons c0 cs' =>
      intro u hu hne
      rw [annotate_node_cons] at hu
      rcases mem_subtrees_node.mp hu with h | ⟨c, hc, hmem⟩
      · subst h
        simp [CTree.chars, CTree.children]
      · rcases List.mem_map.mp hc with ⟨c1, hc1, rfl⟩
        exact ih c1 hc1 u hmem hne

/-- Leaves of the annotated tree are (unchanged) leaves of the input. -/
theorem annotate_leaves_back (m : Int) :
    ∀ t, ∀ u ∈ subtrees (annotate_ancestral_characters m t),
      u.children = [] → u ∈ subtrees t := by
  intro t
  induction t using CTree.myInduction with
  | _ i ch cs ih =>
    cases cs with
    | nil =>
      intro u hu _
      rw [annotate_ancestral_characters] at hu
      exact hu
    | cons c0 cs' =>
      intro u hu hleaf
      rw [annotate_node_cons] at hu
      rcases mem_subtrees_node.mp hu with h | ⟨c, hc, hmem⟩
      · subst h
        simp [CTree.children] at hleaf
      · rcases List.mem_map.mp hc with ⟨c1, hc1, rfl⟩
        exact mem_subtrees_of_child (t := .node i ch (c0 :: cs'))
          (by simpa [CTree.children] using hc1) (ih c1 hc1 u hmem hleaf)

/-- Leaves of the input appear untouched in the annotated tree. -/
theorem annotate_leaves_forth (m : Int) :
    ∀ t, ∀ u ∈ subtrees t, u.children = [] →
      u ∈ subtrees (annotate_ancestral_characters m t) := by
  intro t
  induction t using CTree.myInduction with
  | _ i ch cs ih =>
    cases cs with
    | nil =>
      intro u hu _
      rw [annotate_ancestral_characters]
      exact hu
    | cons c0 cs' =>
      intro u hu hleaf
      rcases mem_subtrees_node.mp hu with h | ⟨c, hc, hmem⟩
      · subst h
        simp [CTree.children] at hleaf
      · rw [annotate_node_cons]
        exact mem_subtrees_node.mpr
          (Or.inr ⟨annotate_ancestral_characters m c, List.mem_map_of_mem _ hc,
            ih c hc u hmem hleaf⟩)

/-- **C3.** After `annotate_ancestral_characters` runs from the root,
each internal node's state at each site equals the single non-ancestral
symbol shared by all of its children whose state at that site is not the
missing symbol when such a unanimous non-ancestral symbol exists, and
equals the ancestral symbol `0` otherwise; leaf annotations are not
changed (leaf subtrees are exactly those of the input), and the recursion
stops at nodes of out-degree 0. -/
theorem annotate_ancestral_correct (m : Int) (t : CTree) :
    (∀ u ∈ subtrees (annotate_ancestral_characters m t),
      u.children ≠ [] →
      (∀ s : Nat, s < ((u.children.map CTree.chars).headD []).length →
        (∀ v ∈ ((u.children.map CTree.chars).map (fun w => w.getD s 0)).filter
            (fun x => decide (x ≠ m)),
          (∀ x ∈ ((u.children.map CTree.chars).map (fun w => w.getD s 0)).filter
              (fun x => decide (x ≠ m)), x = v) →
          v ≠ 0 → u.chars.getD s 0 = v) ∧
        ((¬ ∃ v, v ∈ ((u.children.map CTree.chars).map (fun w => w.getD s 0)).filter
              (fun x => decide (x ≠ m)) ∧ v ≠ 0 ∧
            ∀ x ∈ ((u.children.map CTree.chars).map (fun w => w.getD s 0)).filter
              (fun x => decide (x ≠ m)), x = v) →
          u.chars.getD s 0 = 0)) ∧
      u.chars.length = ((u.children.map CTree.chars).headD []).length) ∧
    (∀ u ∈ subtrees (annotate_ancestral_characters m t),
      u.children = [] → u ∈ subtrees t) ∧
    (∀ u ∈ subtrees t, u.children = [] →
      u ∈ subtrees (annotate_ancestral_characters m t)) ∧
    (t.children = [] → annotate_ancestral_characters m t = t) := by
  refine ⟨?_, annotate_leaves_back m t, annotate_leaves_forth m t, ?_⟩
  · intro u hu hne
    have hlca := annotate_internal_lca m t u hu hne
    constructor
    · intro s hs
      rw [hlca]
      exact ⟨fun v hv hall h0 => lca_site_unanimous _ m s hs v hv hall h0,
        fun hno => lca_site_fallback _ m s hs hno⟩
    · rw [hlca]
      exact get_lca_length _ m
  · intro hleaf
    cases t with
    | node i ch cs =>
      simp [CTree.children] at hleaf
      subst hleaf
      rw [annotate_ancestral_characters]

/-- **C3 witness.** Concrete perfect-phylogeny cherry: both children
carry `[1]`, the annotated root therefore carries `[1]`, and the leaves
are preserved. -/
theorem annotate_ancestral_correct_witness :
    (annotate_ancestral_characters (-1)
        (.node 0 [9] [.node 1 [1] [], .node 2 [1] []])).chars.getD 0 0 = 1 ∧
    CTree.node 1 [1] [] ∈ subtrees (annotate_ancestral_characters (-1)
        (.node 0 [9] [.node 1 [1] [], .node 2 [1] []])) := by
  constructor
  · exact (((annotate_ancestral_correct (-1)
        (.node 0 [9] [.node 1 [1] [], .node 2 [1] []])).1
      (annotate_ancestral_characters (-1)
        (.node 0 [9] [.node 1 [1] [], .node 2 [1] []]))
      (self_mem_subtrees _) (by decide)).1 0 (by decide)).1 1 (by decide)
      (by decide) (by decide)
  · exact (annotate_ancestral_correct (-1)
        (.node 0 [9] [.node 1 [1] [], .node 2 [1] []])).2.2.1
      (CTree.node 1 [1] []) (by decide) rfl

/-! ### Shared lemmas about `collapse_edges` -/

theorem collapse_edges_flags_eq_map (ch : List Int) (cs : List CTree) :
    collapse_edges_flags ch cs = cs.map (fun c =>
      if c.children = [] then (c, false)
      else (collapse_edges c, decide ((collapse_edges c).chars = ch))) := by
  induction cs with
  | nil => rfl
  | cons c cs ih =>
    rw [collapse_edges_flags, ih, List.map_cons]

theorem collapse_edges_id (t : CTree) : (collapse_edges t).id = t.id := by
  cases t with
  | node i ch cs =>
    cases cs with
    | nil => rw [collapse_edges]
    | cons c cs' =>
      rw [collapse_edges]
      rfl

theorem collapse_edges_chars (t : CTree) : (collapse_edges t).chars = t.chars := by
  cases t with
  | node i ch cs =>
    cases cs with
    | nil => rw [collapse_edges]
    | cons c cs' =>
      rw [collapse_edges]
      rfl

theorem collapse_edges_leaf (i : Nat) (ch : List Int) :
    collapse_edges (.node i ch []) = .node i ch [] := by
  rw [collapse_edges]

theorem collapse_edges_children_cons (i : Nat) (ch : List Int) (c0 : CTree)
    (cs : List CTree) :
    (collapse_edges (.node i ch (c0 :: cs))).children =
      ((collapse_edges_flags ch (c0 :: cs)).filter (fun p => ¬ p.2)).map Prod.fst ++
        (((collapse_edges_flags ch (c0 :: cs)).filter (fun p => p.2)).map
          Prod.fst).flatMap CTree.children := by
  rw [collapse_edges]
  rfl

theorem ids_eq (c : CTree) : ids c = c.id :: idsList c.children := by
  cases c with
  | node j chc csc =>
    rw [ids]
    rfl

theorem keptIds_eq (c : CTree) :
    keptIds c = c.id :: keptUnderList c.chars c.children := by
  cases c with
  | node j chc csc =>
    rw [keptIds]
    rfl

theorem keptUnder_leaf (ch : List Int) (c : CTree) (hc : c.children = []) :
    keptUnder ch c = ids c := by
  cases c with
  | node j chc csc =>
    simp only [CTree.children] at hc
    subst hc
    rw [keptUnder, keptUnderList, ids, idsList]
    simp

theorem keptUnder_not_removed (ch : List Int) (c : CTree)
    (h : ¬ (c.children ≠ [] ∧ c.chars = ch)) : keptUnder ch c = keptIds c := by
  cases c with
  | node j chc csc =>
    rw [keptUnder, keptIds]
    rw [if_neg (by simpa [CTree.children, CTree.chars] using h)]
    rfl

theorem keptUnder_removed (ch : List Int) (c : CTree)
    (h1 : c.children ≠ []) (h2 : c.chars = ch) :
    keptUnder ch c = keptUnderList c.chars c.children := by
  cases c with
  | node j chc csc =>
    rw [keptUnder]
    rw [if_pos ⟨by simpa [CTree.children] using h1, by simpa [CTree.chars] using h2⟩]
    rfl

theorem idsList_append (xs ys : List CTree) :
    idsList (xs ++ ys) = idsList xs ++ idsList ys := by
  induction xs with
  | nil => rfl
  | cons c cs ih => rw [List.cons_append, idsList, idsList, ih, List.append_assoc]

theorem collapse_edges_internal : ∀ t : CTree, t.children ≠ [] →
    (collapse_edges t).children ≠ [] := by
  intro t
  induction t using CTree.myInduction with
  | _ i ch cs ih =>
    cases cs with
    | nil => intro h; simp [CTree.children] at h
    | cons c0 cs' =>
      intro _
      rw [collapse_edges_children_cons, collapse_edges_flags_eq_map, List.map_cons]
      by_cases hc0 : c0.children = []
      · rw [if_pos hc0]
        rw [List.filter_cons_of_pos (by simp)]
        simp
      · rw [if_neg hc0]
        cases hflag : decide ((collapse_edges c0).chars = ch) with
        | false =>
          rw [List.filter_cons_of_pos (by simp [hflag])]
          simp
        | true =>
          rw [List.filter_cons_of_neg (by simp [hflag]),
            List.filter_cons_of_pos (by simp [hflag])]
          rw [List.map_cons, List.flatMap_cons]
          have hne := ih c0 (List.mem_cons_self c0 cs') hc0
          rcases List.exists_mem_of_ne_nil _ hne with ⟨g, hg⟩
          intro hcon
          rcases List.append_eq_nil.mp hcon with ⟨_, hrem⟩
          rcases List.append_eq_nil.mp hrem with ⟨hgc, _⟩
          rw [hgc] at hg
          cases hg

/-- Multiset identity for one processed successor list: the surviving
identifiers (kept successors plus reattached grandchildren) are exactly
those the static removal rule predicts. -/
theorem collapse_flags_ids (ch : List Int) (cs : List CTree)
    (ih : ∀ c ∈ cs, (ids (collapse_edges c)).Perm (keptIds c)) :
    ((idsList (((collapse_edges_flags ch cs).filter (fun p => ¬ p.2)).map Prod.fst) :
        Multiset Nat) +
      (idsList ((((collapse_edges_flags ch cs).filter (fun p => p.2)).map
        Prod.fst).flatMap CTree.children) : Multiset Nat)) =
      (keptUnderList ch cs : Multiset Nat) := by
  induction cs with
  | nil => rfl
  | cons c cs' ihl =>
    have ihrest := ihl (fun d hd => ih d (List.mem_cons_of_mem c hd))
    have ihc := ih c (List.mem_cons_self c cs')
    rw [collapse_edges_flags_eq_map, List.map_cons, keptUnderList]
    rw [collapse_edges_flags_eq_map] at ihrest
    by_cases hc : c.children = []
    · rw [if_pos hc]
      rw [List.filter_cons_of_pos (by simp), List.filter_cons_of_neg (by simp)]
      rw [List.map_cons, idsList, keptUnder_leaf ch c hc]
      rw [← Multiset.coe_add, ← Multiset.coe_add]
      rw [← ihrest]
      abel
    · rw [if_neg hc]
      cases hflag : decide ((collapse_edges c).chars = ch) with
      | false =>
        rw [List.filter_cons_of_pos (by simp [hflag]),
          List.filter_cons_of_neg (by simp [hflag])]
        rw [List.map_cons, idsList]
        have hnr : keptUnder ch c = keptIds c := by
          apply keptUnder_not_removed
          intro hand
          have := of_decide_eq_false hflag
          rw [collapse_edges_chars] at this
          exact this hand.2
        rw [hnr]
        have hcoe : (ids (collapse_edges c) : Multiset Nat) = (keptIds c : Multiset Nat) :=
          Multiset.coe_eq_coe.mpr ihc
        rw [← Multiset.coe_add, ← Multiset.coe_add, ← ihrest, hcoe]
        abel
      | true =>
        rw [List.filter_cons_of_neg (by simp [hflag]),
          List.filter_cons_of_pos (by simp [hflag])]
        rw [List.map_cons, List.flatMap_cons, idsList_append]
        have h1 : c.children ≠ [] := hc
        have h2 : c.chars = ch := by
          have := of_decide_eq_true hflag
          rwa [collapse_edges_chars] at this
        rw [keptUnder_removed ch c h1 h2]
        have htail : (idsList ((collapse_edges c).children)).Perm
            (keptUnderList c.chars c.children) := by
          have hperm := ihc
          rw [ids_eq, collapse_edges_id, keptIds_eq] at hperm
          exact hperm.cons_inv
        have hcoe : (idsList ((collapse_edges c).children) : Multiset Nat) =
            (keptUnderList c.chars c.children : Multiset Nat) :=
          Multiset.coe_eq_coe.mpr htail
        rw [← Multiset.coe_add, ← Multiset.coe_add, ← ihrest, hcoe]
        abel

/-- Surviving identifiers of a collapsed tree follow the static rule. -/
theorem collapse_ids_perm : ∀ t : CTree, (ids (collapse_edges t)).Perm (keptIds t) := by
  intro t
  induction t using CTree.myInduction with
  | _ i ch cs ih =>
    cases cs with
    | nil =>
      rw [collapse_edges_leaf, keptIds, keptUnderList, ids, idsList]
    | cons c0 cs' =>
      have hflags := collapse_flags_ids ch (c0 :: cs') ih
      have hch : (collapse_edges (CTree.node i ch (c0 :: cs'))).children =
          ((collapse_edges_flags ch (c0 :: cs')).filter (fun p => ¬ p.2)).map Prod.fst ++
            (((collapse_edges_flags ch (c0 :: cs')).filter (fun p => p.2)).map
              Prod.fst).flatMap CTree.children :=
        collapse_edges_children_cons i ch c0 cs'
      rw [ids_eq, collapse_edges_id, hch, keptIds_eq]
      have : (idsList (((collapse_edges_flags ch (c0 :: cs')).filter
            (fun p => ¬ p.2)).map Prod.fst ++
          (((collapse_edges_flags ch (c0 :: cs')).filter (fun p => p.2)).map
            Prod.fst).flatMap CTree.children)).Perm
          (keptUnderList ch (c0 :: cs')) := by
        rw [idsList_append, ← Multiset.coe_eq_coe, ← Multiset.coe_add]
        exact hflags
      simpa [CTree.id, CTree.chars, CTree.children] using this.cons i

/-- **C6.** During mutationless-edge collapse an internal child is
removed if and only if its character vector equals its parent's: the
multiset of surviving identifiers is exactly the one predicted by the
static rule (`keptIds`: a node is dropped precisely when it has positive
out-degree and its vector equals its original parent's); leaf children
are never removed and stay attached to their parent verbatim; a removed
child's (collapsed) children are all reattached directly to the parent;
and a surviving internal child stays attached (collapsed in place), so
the parent's other edges are preserved. -/
theorem collapse_edges_removal_rule (t : CTree) :
    (ids (collapse_edges t)).Perm (keptIds t) ∧
    (∀ c ∈ t.children, c.children = [] → c ∈ (collapse_edges t).children) ∧
    (∀ c ∈ t.children, c.children ≠ [] → c.chars = t.chars →
      ∀ g ∈ (collapse_edges c).children, g ∈ (collapse_edges t).children) ∧
    (∀ c ∈ t.children, c.children ≠ [] → c.chars ≠ t.chars →
      collapse_edges c ∈ (collapse_edges t).children) := by
  refine ⟨collapse_ids_perm t, ?_, ?_, ?_⟩
  · intro c hc hleaf
    cases t with
    | node i ch cs =>
      cases cs with
      | nil => simp [CTree.children] at hc
      | cons c0 cs' =>
        rw [collapse_edges_children_cons, collapse_edges_flags_eq_map]
        apply List.mem_append_left
        apply List.mem_map.mpr
        refine ⟨(c, false), ?_, rfl⟩
        apply List.mem_filter.mpr
        refine ⟨?_, by simp⟩
        apply List.mem_map.mpr
        exact ⟨c, by simpa [CTree.children] using hc, by simp [hleaf]⟩
  · intro c hc hne hchars g hg
    cases t with
    | node i ch cs =>
      cases cs with
      | nil => simp [CTree.children] at hc
      | cons c0 cs' =>
        rw [collapse_edges_children_cons, collapse_edges_flags_eq_map]
        apply List.mem_append_right
        apply List.mem_flatMap.mpr
        refine ⟨collapse_edges c, ?_, hg⟩
        apply List.mem_map.mpr
        refine ⟨(collapse_edges c, true), ?_, rfl⟩
        apply List.mem_filter.mpr
        have hflag : decide ((collapse_edges c).chars = ch) = true := by
          rw [collapse_edges_chars]
          simp only [decide_eq_true_eq]
          simpa [CTree.chars] using hchars
        refine ⟨?_, by simp⟩
        apply List.mem_map.mpr
        exact ⟨c, by simpa [CTree.children] using hc, by simp [hne, hflag]⟩
  · intro c hc hne hchars
    cases t with
    | node i ch cs =>
      cases cs with
      | nil => simp [CTree.children] at hc
      | cons c0 cs' =>
        rw [collapse_edges_children_cons, collapse_edges_flags_eq_map]
        apply List.mem_append_left
        apply List.mem_map.mpr
        have hflag : decide ((collapse_edges c).chars = ch) = false := by
          rw [collapse_edges_chars]
          simp only [decide_eq_false_iff_not]
          simpa [CTree.chars] using hchars
        refine ⟨(collapse_edges c, false), ?_, rfl⟩
        apply List.mem_filter.mpr
        refine ⟨?_, by simp⟩
        apply List.mem_map.mpr
        exact ⟨c, by simpa [CTree.children] using hc, by simp [hne, hflag]⟩

/-- **C6 witness.** Concrete tree where the internal child `1` shares
its parent's vector `[1]` and is removed: its child (leaf `2`) is
reattached beneath the root, the leaf child `3` survives in place, and
the surviving identifiers are `{0, 2, 3}`. -/
theorem collapse_edges_removal_rule_witness :
    CTree.node 2 [2] [] ∈
      (collapse_edges (.node 0 [1] [.node 1 [1] [.node 2 [2] []],
        .node 3 [3] []])).children ∧
    CTree.node 3 [3] [] ∈
      (collapse_edges (.node 0 [1] [.node 1 [1] [.node 2 [2] []],
        .node 3 [3] []])).children := by
  constructor
  · exact (collapse_edges_removal_rule
      (.node 0 [1] [.node 1 [1] [.node 2 [2] []], .node 3 [3] []])).2.2.1
      (.node 1 [1] [.node 2 [2] []]) (by decide) (by decide) (by decide)
      (.node 2 [2] []) (by decide)
  · exact (collapse_edges_removal_rule
      (.node 0 [1] [.node 1 [1] [.node 2 [2] []], .node 3 [3] []])).2.1
      (.node 3 [3] []) (by decide) (by decide)

theorem goodTree_node {i : Nat} {ch : List Int} {cs : List CTree} :
    GoodTree (.node i ch cs) ↔
      ∀ c ∈ cs, (c.children ≠ [] → c.chars ≠ ch) ∧ GoodTree c := by
  constructor
  · intro hg c hc
    constructor
    · intro hne
      have := hg (.node i ch cs) (self_mem_subtrees _) c
        (by simpa [CTree.children] using hc) hne
      simpa [CTree.chars] using this
    · intro u hu d hd hdne
      exact hg u (mem_subtrees_of_child (t := .node i ch cs)
        (by simpa [CTree.children] using hc) hu) d hd hdne
  · intro h u hu d hd hdne
    rcases mem_subtrees_node.mp hu with rfl | ⟨c, hc, hmem⟩
    · have := (h d (by simpa [CTree.children] using hd)).1 hdne
      simpa [CTree.chars] using this
    · exact (h c hc).2 u hmem d hd hdne

theorem collapse_edges_good : ∀ t : CTree, GoodTree (collapse_edges t) := by
  intro t
  induction t using CTree.myInduction with
  | _ i ch cs ih =>
    cases cs with
    | nil =>
      rw [collapse_edges_leaf]
      exact goodTree_node.mpr (by simp)
    | cons c0 cs' =>
      rw [collapse_edges]
      apply goodTree_node.mpr
      intro d hd
      rcases List.mem_append.mp hd with hdk | hdr
      · rcases List.mem_map.mp hdk with ⟨p, hp, rfl⟩
        have hpf := List.mem_filter.mp hp
        rw [collapse_edges_flags_eq_map] at hpf
        rcases List.mem_map.mp hpf.1 with ⟨c, hc, heq⟩
        by_cases hcl : c.children = []
        · rw [if_pos hcl] at heq
          rw [← heq]
          constructor
          · intro hne
            exact absurd hcl hne
          · cases c with
            | node j chc csc =>
              simp only [CTree.children] at hcl
              subst hcl
              exact goodTree_node.mpr (by simp)
        · rw [if_neg hcl] at heq
          have hflag : decide ((collapse_edges c).chars = ch) = false := by
            have := hpf.2
            rw [← heq] at this
            simpa using this
          rw [← heq]
          constructor
          · intro _
            exact of_decide_eq_false hflag
          · exact ih c hc
      · rcases List.mem_flatMap.mp hdr with ⟨e, he, hde⟩
        rcases List.mem_map.mp he with ⟨p, hp, rfl⟩
        have hpf := List.mem_filter.mp hp
        rw [collapse_edges_flags_eq_map] at hpf
        rcases List.mem_map.mp hpf.1 with ⟨c, hc, heq⟩
        by_cases hcl : c.children = []
        · rw [if_pos hcl] at heq
          have : p.2 = false := by rw [← heq]
          rw [this] at hpf
          simp at hpf
        · rw [if_neg hcl] at heq
          have hgc : GoodTree (collapse_edges c) := ih c hc
          have hp1 : p.1 = collapse_edges c := by rw [← heq]
          rw [hp1] at hde
          have hflag : decide ((collapse_edges c).chars = ch) = true := by
            have := hpf.2
            rw [← heq] at this
            simpa using this
          have hchars : (collapse_edges c).chars = ch := of_decide_eq_true hflag
          cases hcc : collapse_edges c with
          | node j2 ch2 cs2 =>
            rw [hcc] at hde hgc hchars
            simp only [CTree.children] at hde
            simp only [CTree.chars] at hchars
            have := goodTree_node.mp hgc d hde
            subst hchars
            exact this

theorem collapse_edges_of_good : ∀ t : CTree, GoodTree t → collapse_edges t = t := by
  intro t
  induction t using CTree.myInduction with
  | _ i ch cs ih =>
    intro hg
    cases cs with
    | nil => exact collapse_edges_leaf i ch
    | cons c0 cs' =>
      have hprop := goodTree_node.mp hg
      rw [collapse_edges]
      have hflags : collapse_edges_flags ch (c0 :: cs') =
          (c0 :: cs').map (fun c => (c, false)) := by
        rw [collapse_edges_flags_eq_map]
        apply List.map_congr_left
        intro c hc
        by_cases hcl : c.children = []
        · rw [if_pos hcl]
        · rw [if_neg hcl]
          have h1 := (hprop c hc).1 hcl
          have h2 := ih c hc (hprop c hc).2
          rw [h2]
          simp [h1]
      rw [hflags]
      have hkeep : (((c0 :: cs').map (fun c => (c, false))).filter
          (fun p => ¬ p.2)).map Prod.fst = c0 :: cs' := by
        rw [List.filter_eq_self.mpr ?_]
        · rw [List.map_map]
          have hcomp : (Prod.fst ∘ fun c : CTree => (c, false)) = id := rfl
          rw [hcomp, List.map_id]
        · intro p hp
          rcases List.mem_map.mp hp with ⟨c, _, rfl⟩
          simp
      have hrem : ((c0 :: cs').map (fun c => (c, false))).filter
          (fun p => p.2) = [] := by
        rw [List.filter_eq_nil_iff]
        intro p hp
        rcases List.mem_map.mp hp with ⟨c, _, rfl⟩
        simp
      rw [hkeep, hrem]
      simp

/-- **C5.** `collapse_tree` on an annotated tree (the
`infer_ancestral_characters = False` path, which reads the existing
annotations) is idempotent: running it on its own output returns that
output unchanged, and a second mutationless-edge collapse pass over an
already-collapsed tree is a no-op. -/
theorem collapse_tree_idempotent (t : CTree) (cm : Option (Nat → List Int))
    (mc : Option Int) :
    (collapse_tree t false cm mc).bind
        (fun u => collapse_tree u false cm mc) = collapse_tree t false cm mc ∧
    collapse_edges (collapse_edges t) = collapse_edges t := by
  have hid : collapse_edges (collapse_edges t) = collapse_edges t :=
    collapse_edges_of_good _ (collapse_edges_good t)
  refine ⟨?_, hid⟩
  simp [collapse_tree, Except.bind, hid]

/-! ### Shared lemmas about `collapse_unifurcations` and `leafDepths` -/

theorem collapseUnifList_cons (w : Rat) (t : WTree) (ps : List (Rat × WTree)) :
    collapseUnifList ((w, t) :: ps) =
      collapseUnifFrom w t :: collapseUnifList ps := by
  rw [collapseUnifList]

theorem leafDepthsList_cons (w : Rat) (t : WTree) (ps : List (Rat × WTree)) :
    leafDepthsList ((w, t) :: ps) =
      (leafDepths t).map (fun q => (q.1, q.2 + w)) ++ leafDepthsList ps := by
  rw [leafDepthsList]

theorem leafDepthsList_shift (w : Rat) (cs : List (Rat × WTree)) :
    leafDepthsList (cs.map (fun q => (w + q.1, q.2))) =
      (leafDepthsList cs).map (fun q => (q.1, q.2 + w)) := by
  induction cs with
  | nil => rfl
  | cons p ps ih =>
    cases p with
    | mk w0 t0 =>
      rw [List.map_cons]
      rw [leafDepthsList_cons, leafDepthsList_cons, ih, List.map_append]
      congr 1
      rw [List.map_map]
      apply List.map_congr_left
      intro q _
      simp only [Function.comp_apply, Prod.mk.injEq, true_and]
      ring

theorem leafDepths_node_cons (i : Nat) (x : Rat × WTree) (xs : List (Rat × WTree)) :
    leafDepths (.node i (x :: xs)) = leafDepthsList (x :: xs) := by
  rw [leafDepths]

/-- The successor loop of the recursive pass preserves the shifted leaf
depths, given preservation for every member edge. -/
theorem leafDepthsList_collapse (cs : List (Rat × WTree))
    (ih : ∀ p ∈ cs, ∀ w2 : Rat,
      (leafDepths (collapseUnifFrom w2 p.2).2).map
          (fun q => (q.1, q.2 + (collapseUnifFrom w2 p.2).1)) =
        (leafDepths p.2).map (fun q => (q.1, q.2 + w2))) :
    leafDepthsList (collapseUnifList cs) = leafDepthsList cs := by
  induction cs with
  | nil => rfl
  | cons p ps ihl =>
    obtain ⟨w0, t0⟩ := p
    rw [collapseUnifList_cons]
    cases hcf : collapseUnifFrom w0 t0 with
    | mk w1 s1 =>
      rw [leafDepthsList_cons, leafDepthsList_cons]
      rw [ihl (fun d hd => ih d (List.mem_cons_of_mem _ hd))]
      congr 1
      have hkey := ih (w0, t0) (List.mem_cons_self _ _) w0
      rw [hcf] at hkey
      exact hkey

/-- The recursive pass preserves the shifted leaf depths of every
processed edge. -/
theorem collapseUnifFrom_preserves :
    ∀ t : WTree, ∀ w : Rat,
      (leafDepths (collapseUnifFrom w t).2).map
          (fun q => (q.1, q.2 + (collapseUnifFrom w t).1)) =
        (leafDepths t).map (fun q => (q.1, q.2 + w)) := by
  intro t
  induction t using WTree.wMyInduction with
  | _ i cs ih =>
    intro w
    cases cs with
    | nil =>
      rw [collapseUnifFrom]
    | cons p0 rest =>
      cases rest with
      | nil =>
        obtain ⟨w', t'⟩ := p0
        rw [collapseUnifFrom]
        rw [ih (w', t') (List.mem_cons_self _ _) (w + w')]
        rw [leafDepths_node_cons, leafDepthsList_cons, leafDepthsList]
        rw [List.append_nil, List.map_map]
        apply List.map_congr_left
        intro q _
        simp only [Function.comp_apply, Prod.mk.injEq, true_and]
        ring
      | cons p1 ps =>
        rw [collapseUnifFrom]
        have hlist := leafDepthsList_collapse (p0 :: p1 :: ps) ih
        obtain ⟨w0, t0⟩ := p0
        rw [collapseUnifList_cons] at hlist ⊢
        cases hcf : collapseUnifFrom w0 t0 with
        | mk w1 s1 =>
          dsimp only
          rw [hcf] at hlist
          rw [leafDepths_node_cons, leafDepths_node_cons, hlist]

theorem collapseUnifList_nil : collapseUnifList [] = [] := by
  rw [collapseUnifList]

/-- **C4 counterexample.** Path lengths are not preserved for every
leaf: in the two-node weighted tree `0 →(1) 1`, leaf `1` sits at depth
`1` before collapsing, but after `collapse_unifurcations` the leaf has
been deleted altogether (only the source remains, at depth 0). -/
theorem collapse_unif_drops_leaf :
    (1, (1 : Rat)) ∈ leafDepths (.node 0 [(1, .node 1 [])]) ∧
    (1, (1 : Rat)) ∉ leafDepths (collapse_unifurcations (.node 0 [(1, .node 1 [])])) := by
  constructor
  · rw [leafDepths_node_cons, leafDepthsList_cons, leafDepthsList]
    simp [leafDepths]
  · have hcoll : collapse_unifurcations (.node 0 [(1, .node 1 [])]) = .node 0 [] := by
      simp [collapse_unifurcations, collapseUnifList, collapseUnifFrom, WTree.children]
    rw [hcoll, leafDepths]
    simp

/-- **C4 amended.** The recursive pass preserves every root-to-leaf
distance exactly (second conjunct); after the final source fold, every
leaf-depth pair of the collapsed tree already occurred in the original
tree, except that the source itself (at depth 0) may have become a leaf
when its sole remaining successor was a leaf and was deleted. -/
theorem collapse_unif_depths (t : WTree) :
    (∀ p ∈ leafDepths (collapse_unifurcations t), p ∈ leafDepths t ∨ p = (t.id, 0)) ∧
    (∀ (w : Rat) (s : WTree),
      (leafDepths (collapseUnifFrom w s).2).map
          (fun q => (q.1, q.2 + (collapseUnifFrom w s).1)) =
        (leafDepths s).map (fun q => (q.1, q.2 + w))) := by
  refine ⟨?_, fun w s => collapseUnifFrom_preserves s w⟩
  intro p hp
  cases t with
  | node i cs =>
    cases cs with
    | nil =>
      rw [collapse_unifurcations] at hp
      rw [collapseUnifList_nil] at hp
      rw [leafDepths] at hp
      rcases List.mem_singleton.mp hp with rfl
      right
      rw [WTree.id]
    | cons p0 rest =>
      cases rest with
      | nil =>
        obtain ⟨w0, t0⟩ := p0
        rw [collapse_unifurcations, collapseUnifList_cons, collapseUnifList_nil] at hp
        cases hcf : collapseUnifFrom w0 t0 with
        | mk w1 s1 =>
          rw [hcf] at hp
          dsimp only at hp
          cases hs1 : s1.children with
          | nil =>
            rw [hs1] at hp
            rw [List.map_nil, leafDepths] at hp
            rcases List.mem_singleton.mp hp with rfl
            right
            rw [WTree.id]
          | cons d ds =>
            left
            rw [hs1, List.map_cons, leafDepths_node_cons] at hp
            have hform : ((w1 + d.1, d.2) :: ds.map (fun q => (w1 + q.1, q.2))) =
                (d :: ds).map (fun q => (w1 + q.1, q.2)) := rfl
            rw [hform, leafDepthsList_shift] at hp
            have hs1full : leafDepthsList (d :: ds) = leafDepths s1 := by
              cases s1 with
              | node j cs1 =>
                simp only [WTree.children] at hs1
                subst hs1
                rw [leafDepths_node_cons]
            rw [hs1full] at hp
            have hpres := collapseUnifFrom_preserves t0 w0
            rw [hcf] at hpres
            dsimp only at hpres
            rw [hpres] at hp
            rw [leafDepths_node_cons, leafDepthsList_cons, leafDepthsList,
              List.append_nil]
            exact hp
      | cons p1 ps =>
        left
        obtain ⟨w0, t0⟩ := p0
        obtain ⟨wa, ta⟩ := p1
        rw [collapse_unifurcations, collapseUnifList_cons, collapseUnifList_cons] at hp
        cases hcf0 : collapseUnifFrom w0 t0 with
        | mk wb sb =>
          cases hcf1 : collapseUnifFrom wa ta with
          | mk wc sc =>
            rw [hcf0, hcf1] at hp
            rw [leafDepths_node_cons] at hp
            have hlist := leafDepthsList_collapse ((w0, t0) :: (wa, ta) :: ps)
              (fun q _ w2 => collapseUnifFrom_preserves q.2 w2)
            rw [collapseUnifList_cons, collapseUnifList_cons, hcf0, hcf1] at hlist
            rw [hlist] at hp
            rw [leafDepths_node_cons]
            exact hp

/-- **C4 amended witness.** A root with two leaf children is unchanged
by `collapse_unifurcations`, and leaf `1`'s depth pair `(1, 1)` in the
collapsed tree is found in the original tree. -/
theorem collapse_unif_depths_witness :
    (1, (1 : Rat)) ∈ leafDepths (.node 0 [(1, .node 1 []), (2, .node 2 [])]) := by
  have h := (collapse_unif_depths (.node 0 [(1, .node 1 []), (2, .node 2 [])])).1
    (1, (1 : Rat)) ?hmem
  · rcases h with h | h
    · exact h
    · rw [WTree.id] at h
      simp only [Prod.mk.injEq] at h
      exact absurd h.1 (by norm_num)
  · simp [collapse_unifurcations, collapseUnifList, collapseUnifFrom, leafDepths,
      leafDepthsList]

/-- **C10.** In the networkx `collapse_unifurcations`, if after the
recursive pass the source has exactly one remaining successor, that
successor is deleted and each of its out-edges is reattached to the
source with the two weights summed — even when that sole successor is a
leaf: for a two-node weighted tree the leaf is removed and only the
source remains. -/
theorem collapse_unif_deletes_sole_child :
    (∀ (a b : Nat) (w : Rat),
      collapse_unifurcations (.node a [(w, .node b [])]) = .node a []) ∧
    (∀ (a : Nat) (w w2 : Rat) (s s2 : WTree),
      collapseUnifFrom w s = (w2, s2) →
      collapse_unifurcations (.node a [(w, s)]) =
        .node a (s2.children.map (fun q => (w2 + q.1, q.2)))) := by
  constructor
  · intro a b w
    simp [collapse_unifurcations, collapseUnifList, collapseUnifFrom, WTree.children]
  · intro a w w2 s s2 h
    simp [collapse_unifurcations, collapseUnifList, h]

/-- **C10 witness.** Source with one chain successor ending in a
bifurcation: the fold reattaches both grandchild edges with summed
weights. -/
theorem collapse_unif_deletes_sole_child_witness :
    collapse_unifurcations
        (.node 0 [(1, .node 1 [(2, .node 2 []), (3, .node 3 [])])]) =
      .node 0 [(1 + 2, .node 2 []), (1 + 3, .node 3 [])] := by
  have h := collapse_unif_deletes_sole_child.2 0 1 1
    (.node 1 [(2, .node 2 []), (3, .node 3 [])])
    (.node 1 [(2, .node 2 []), (3, .node 3 [])])
    (by simp [collapseUnifFrom, collapseUnifList])
  simpa [WTree.children] using h

/-! ### Shared lemmas about `solveLoop` and `solve_unrooted` -/

theorem degree_mk (ns : List L) (es : List (L × L)) (l : L) :
    degree ⟨ns, es⟩ l = es.countP (fun e => decide (e.1 = l ∨ e.2 = l)) := rfl

theorem degree_append_edges (ns : List L) (es1 es2 : List (L × L)) (l : L) :
    degree ⟨ns, es1 ++ es2⟩ l =
      degree ⟨ns, es1⟩ l + degree ⟨ns, es2⟩ l := by
  simp [degree_mk, List.countP_append]

theorem degree_eq_countP (g : UGraph L) (l : L) :
    degree g l = g.edges.countP (fun e => decide (e.1 = l ∨ e.2 = l)) := rfl

theorem degree_zero_of_not_touching (g : UGraph L) (l : L)
    (h : ∀ e ∈ g.edges, e.1 ≠ l ∧ e.2 ≠ l) : degree g l = 0 := by
  rw [degree_eq_countP, List.countP_eq_zero]
  intro e he
  simp [h e he]

theorem getD_mem_of_lt (l : List L) (i : Nat) (h : i < l.length) (d : L) :
    l.getD i d ∈ l := by
  rw [List.getD_eq_getElem _ _ h]
  exact List.getElem_mem h

theorem getD_ne_of_nodup (l : List L) (h : l.Nodup) (i j : Nat)
    (hi : i < l.length) (hj : j < l.length) (hne : i ≠ j) (d : L) :
    l.getD i d ≠ l.getD j d := by
  rw [List.getD_eq_getElem _ _ hi, List.getD_eq_getElem _ _ hj]
  simp only [ne_eq, List.Nodup.getElem_inj_iff h]
  omega

theorem degree_split (ns : List L) (es2 : List (L × L)) (g : UGraph L) (l : L) :
    degree ⟨ns, g.edges ++ es2⟩ l = degree g l + degree ⟨ns, es2⟩ l := by
  rw [degree_append_edges]
  rfl

/-- One merge step of `solveLoop` preserves the invariant. -/
theorem solve_step_inv (V : Variant L) (nameOf : Nat → L) (samples : List L)
    (hinj : ∀ j1 j2, j1 < 2 * samples.length → j2 < 2 * samples.length →
      nameOf j1 = nameOf j2 → j1 = j2)
    (hfresh : ∀ j < 2 * samples.length, nameOf j ∉ samples)
    (hch : ∀ (ent : Nat → Nat → Rat) (n : Nat), 2 < n →
      (V.find_cherry ent n).1 < n ∧ (V.find_cherry ent n).2 < n ∧
        (V.find_cherry ent n).1 ≠ (V.find_cherry ent n).2)
    (hup : ∀ (m : DMap L) (a b c : L), a ∈ m.labels → b ∈ m.labels → a ≠ b →
      (V.update_dissimilarity_map m (a, b) c).labels.Perm
        (c :: (m.labels.erase a).erase b))
    (g : UGraph L) (m : DMap L) (k : Nat)
    (hInv : SolveInv samples nameOf g m k) (hlen : 2 < m.labels.length) :
    SolveInv samples nameOf
      ⟨g.nodes ++ [nameOf g.nodes.length],
        g.edges ++ [(nameOf g.nodes.length,
            m.labels.getD (V.find_cherry m.entries m.labels.length).1 default),
          (nameOf g.nodes.length,
            m.labels.getD (V.find_cherry m.entries m.labels.length).2 default)]⟩
      (V.update_dissimilarity_map m
        (m.labels.getD (V.find_cherry m.entries m.labels.length).1 default,
          m.labels.getD (V.find_cherry m.entries m.labels.length).2 default)
        (nameOf g.nodes.length)) (k + 1) := by
  obtain ⟨hnodes, hnd, hklen, hge, hsub, hsdeg, hcdeg, hedge⟩ := hInv
  obtain ⟨hi, hj, hij⟩ := hch m.entries m.labels.length hlen
  set N := samples.length with hN
  set i := (V.find_cherry m.entries m.labels.length).1 with hidef
  set j := (V.find_cherry m.entries m.labels.length).2 with hjdef
  set a := m.labels.getD i default with ha
  set b := m.labels.getD j default with hb
  have hglen : g.nodes.length = N + k := by
    rw [hnodes]
    simp
  set c := nameOf g.nodes.length with hc
  have hcN : c = nameOf (N + k) := by rw [hc, hglen]
  have hkltN : k < N := by omega
  have hNkbound : N + k < 2 * N := by omega
  have ha_mem : a ∈ m.labels := getD_mem_of_lt _ i hi default
  have hb_mem : b ∈ m.labels := getD_mem_of_lt _ j hj default
  have hab : a ≠ b := getD_ne_of_nodup _ hnd i j hi hj hij default
  have hc_samples : c ∉ samples := by
    rw [hcN]
    exact hfresh (N + k) hNkbound
  have hc_nodes : c ∉ g.nodes := by
    rw [hnodes, hcN]
    intro hmem
    rcases List.mem_append.mp hmem with hmem | hmem
    · exact hfresh (N + k) hNkbound hmem
    · rcases List.mem_map.mp hmem with ⟨j2, hj2, heq⟩
      have hj2k := List.mem_range.mp hj2
      have := hinj (N + j2) (N + k) (by omega) (by omega) heq
      omega
  have hc_labels : c ∉ m.labels := fun hmem => hc_nodes (hsub c hmem)
  have hca : c ≠ a := fun h => hc_labels (h ▸ ha_mem)
  have hcb : c ≠ b := fun h => hc_labels (h ▸ hb_mem)
  have hperm := hup m a b c ha_mem hb_mem hab
  have hmem_iff : ∀ x, x ∈ (V.update_dissimilarity_map m (a, b) c).labels ↔
      x = c ∨ (x ≠ b ∧ x ≠ a ∧ x ∈ m.labels) := by
    intro x
    rw [hperm.mem_iff, List.mem_cons,
      List.Nodup.mem_erase_iff (hnd.erase a), List.Nodup.mem_erase_iff hnd]
  have ha_not' : a ∉ (V.update_dissimilarity_map m (a, b) c).labels := by
    rw [hmem_iff]
    push_neg
    exact ⟨fun h => hca h.symm, fun _ h => absurd rfl h⟩
  have hb_not' : b ∉ (V.update_dissimilarity_map m (a, b) c).labels := by
    rw [hmem_iff]
    push_neg
    exact ⟨fun h => hcb h.symm, fun h => absurd rfl h⟩
  have hnew_edges_deg : ∀ x : L,
      degree (⟨g.nodes ++ [c], [(c, a), (c, b)]⟩ : UGraph L) x =
        (if c = x ∨ a = x then 1 else 0) + (if c = x ∨ b = x then 1 else 0) := by
    intro x
    rw [degree_mk, List.countP_cons, List.countP_cons, List.countP_nil]
    by_cases h1 : c = x ∨ a = x <;> by_cases h2 : c = x ∨ b = x <;>
      simp [h1, h2]
  constructor
  · rw [hnodes, hcN, List.range_succ, List.map_append, List.append_assoc]
    rfl
  · exact hperm.nodup_iff.mpr (List.Nodup.cons
      (fun hmem => hc_labels (List.mem_of_mem_erase (List.mem_of_mem_erase hmem)))
      ((hnd.erase a).erase b))
  · have hlab_len : (V.update_dissimilarity_map m (a, b) c).labels.length =
        m.labels.length - 1 := by
      rw [hperm.length_eq]
      have h1 : (m.labels.erase a).length = m.labels.length - 1 :=
        List.length_erase_of_mem ha_mem
      have h2 : b ∈ m.labels.erase a :=
        (List.Nodup.mem_erase_iff hnd).mpr ⟨fun h => hab h.symm, hb_mem⟩
      have h3 : ((m.labels.erase a).erase b).length =
          (m.labels.erase a).length - 1 := List.length_erase_of_mem h2
      simp only [List.length_cons, h3, h1]
      omega
    rw [hlab_len]
    omega
  · have hlab_len : (V.update_dissimilarity_map m (a, b) c).labels.length =
        m.labels.length - 1 := by
      rw [hperm.length_eq]
      have h1 : (m.labels.erase a).length = m.labels.length - 1 :=
        List.length_erase_of_mem ha_mem
      have h2 : b ∈ m.labels.erase a :=
        (List.Nodup.mem_erase_iff hnd).mpr ⟨fun h => hab h.symm, hb_mem⟩
      have h3 : ((m.labels.erase a).erase b).length =
          (m.labels.erase a).length - 1 := List.length_erase_of_mem h2
      simp only [List.length_cons, h3, h1]
      omega
    rw [hlab_len]
    omega
  · intro l hl
    rcases (hmem_iff l).mp hl with rfl | ⟨_, _, hl2⟩
    · exact List.mem_append_right _ (List.mem_singleton.mpr rfl)
    · exact List.mem_append_left _ (hsub l hl2)
  · intro s hs
    have hsc : s ≠ c := fun h => hc_samples (h ▸ hs)
    rw [degree_split, hsdeg s hs, hnew_edges_deg s]
    by_cases hsa : s = a
    · rw [hsa]
      simp [ha_mem, ha_not', hca, Ne.symm hab]
    · by_cases hsb : s = b
      · rw [hsb]
        simp [hb_mem, hb_not', hcb, hab]
      · have hmem' : s ∈ (V.update_dissimilarity_map m (a, b) c).labels ↔
            s ∈ m.labels := by
          rw [hmem_iff]
          constructor
          · rintro (rfl | ⟨_, _, h⟩)
            · exact absurd rfl hsc
            · exact h
          · intro h
            exact Or.inr ⟨hsb, hsa, h⟩
        rw [show (if c = s ∨ a = s then 1 else 0) = 0 from
            if_neg (by rintro (h | h); exacts [hsc h.symm, hsa h.symm]),
          show (if c = s ∨ b = s then 1 else 0) = 0 from
            if_neg (by rintro (h | h); exacts [hsc h.symm, hsb h.symm])]
        by_cases hsm : s ∈ m.labels <;> simp [hsm, hmem']
  · intro j2 hj2
    rcases Nat.lt_succ_iff_lt_or_eq.mp hj2 with hj2lt | rfl
    · set nm := nameOf (N + j2) with hnm
      have hnmc : nm ≠ c := by
        rw [hnm, hcN]
        intro h
        have := hinj (N + j2) (N + k) (by omega) (by omega) h
        omega
      have hbase := hcdeg j2 hj2lt
      rw [← hnm] at hbase
      rw [degree_split, hbase, hnew_edges_deg nm]
      by_cases hna : nm = a
      · rw [hna]
        simp [ha_mem, ha_not', hca, Ne.symm hab]
      · by_cases hnb : nm = b
        · rw [hnb]
          simp [hb_mem, hb_not', hcb, hab]
        · have hmem' : nm ∈ (V.update_dissimilarity_map m (a, b) c).labels ↔
              nm ∈ m.labels := by
            rw [hmem_iff]
            constructor
            · rintro (h | ⟨_, _, h⟩)
              · exact absurd h hnmc
              · exact h
            · intro h
              exact Or.inr ⟨hnb, hna, h⟩
          rw [show (if c = nm ∨ a = nm then 1 else 0) = 0 from
              if_neg (by rintro (h | h); exacts [hnmc.symm h, hna h.symm]),
            show (if c = nm ∨ b = nm then 1 else 0) = 0 from
              if_neg (by rintro (h | h); exacts [hnmc.symm h, hnb h.symm])]
          by_cases hnmm : nm ∈ m.labels <;> simp [hnmm, hmem']
    · rw [← hcN]
      have hzero : degree g c = 0 := by
        apply degree_zero_of_not_touching
        intro e he
        obtain ⟨h1, h2, _⟩ := hedge e he
        exact ⟨fun h => hc_nodes (h ▸ h1), fun h => hc_nodes (h ▸ h2)⟩
      rw [degree_split, hzero, hnew_edges_deg c]
      have hcmem : c ∈ (V.update_dissimilarity_map m (a, b) c).labels :=
        (hmem_iff c).mpr (Or.inl rfl)
      simp [hcmem]
  · intro e he
    rcases List.mem_append.mp he with he | he
    · obtain ⟨h1, h2, h3⟩ := hedge e he
      refine ⟨List.mem_append_left _ h1, List.mem_append_left _ h2, ?_⟩
      intro hmem
      rcases (hmem_iff e.2).mp hmem with h | ⟨_, _, h⟩
      · exact hc_nodes (h ▸ h2)
      · exact h3 h
    · rcases List.mem_cons.mp he with rfl | he2
      · exact ⟨List.mem_append_right _ (List.mem_singleton.mpr rfl),
          List.mem_append_left _ (hsub a ha_mem), ha_not'⟩
      · rcases List.mem_singleton.mp he2 with rfl
        exact ⟨List.mem_append_right _ (List.mem_singleton.mpr rfl),
          List.mem_append_left _ (hsub b hb_mem), hb_not'⟩

/-- The merge loop maintains the invariant and exits with exactly two
active nodes. -/
theorem solveLoop_inv (V : Variant L) (nameOf : Nat → L) (samples : List L)
    (hinj : ∀ j1 j2, j1 < 2 * samples.length → j2 < 2 * samples.length →
      nameOf j1 = nameOf j2 → j1 = j2)
    (hfresh : ∀ j < 2 * samples.length, nameOf j ∉ samples)
    (hch : ∀ (ent : Nat → Nat → Rat) (n : Nat), 2 < n →
      (V.find_cherry ent n).1 < n ∧ (V.find_cherry ent n).2 < n ∧
        (V.find_cherry ent n).1 ≠ (V.find_cherry ent n).2)
    (hup : ∀ (m : DMap L) (a b c : L), a ∈ m.labels → b ∈ m.labels → a ≠ b →
      (V.update_dissimilarity_map m (a, b) c).labels.Perm
        (c :: (m.labels.erase a).erase b)) :
    ∀ (fuel : Nat) (g : UGraph L) (m : DMap L) (k : Nat),
      SolveInv samples nameOf g m k → m.labels.length ≤ fuel + 2 →
      ∃ k', SolveInv samples nameOf (solveLoop V nameOf fuel (g, m)).1
          (solveLoop V nameOf fuel (g, m)).2 k' ∧
        (solveLoop V nameOf fuel (g, m)).2.labels.length = 2 := by
  intro fuel
  induction fuel with
  | zero =>
    intro g m k hInv hle
    rw [solveLoop]
    have := hInv.labels_ge
    exact ⟨k, hInv, by show m.labels.length = 2; omega⟩
  | succ fuel ih =>
    intro g m k hInv hle
    rw [solveLoop]
    by_cases hlen : m.labels.length > 2
    · rw [if_pos hlen]
      have hstep := solve_step_inv V nameOf samples hinj hfresh hch hup g m k hInv hlen
      have hlen' : (V.update_dissimilarity_map m
          (m.labels.getD (V.find_cherry m.entries m.labels.length).1 default,
            m.labels.getD (V.find_cherry m.entries m.labels.length).2 default)
          (nameOf g.nodes.length)).labels.length ≤ fuel + 2 := by
        have h1 := hstep.labels_len
        have h2 := hInv.labels_len
        omega
      exact ih _ _ (k + 1) hstep hlen'
    · rw [if_neg hlen]
      have := hInv.labels_ge
      exact ⟨k, hInv, by show m.labels.length = 2; omega⟩

theorem relabelGraph_id (f : L → L) (g : UGraph L)
    (hid : ∀ l ∈ g.nodes, f l = l) (hnd : g.nodes.Nodup)
    (hedges : ∀ e ∈ g.edges, e.1 ∈ g.nodes ∧ e.2 ∈ g.nodes) :
    relabelGraph f g = g := by
  cases g with
  | mk ns es =>
    simp only [relabelGraph, UGraph.mk.injEq]
    constructor
    · have h1 : ns.map f = ns := by
        have hcong : ns.map f = ns.map id :=
          List.map_congr_left (by
            intro x hx
            rw [hid x hx]
            rfl)
        rw [hcong, List.map_id]
      rw [h1]
      exact List.dedup_eq_self.mpr hnd
    · have hcong : es.map (fun e => (f e.1, f e.2)) = es.map id :=
        List.map_congr_left (by
          intro e he
          obtain ⟨ha, hb⟩ := hedges e he
          rw [hid e.1 ha, hid e.2 hb]
          rfl)
      rw [hcong, List.map_id]

theorem identifier_to_sample_eq_self (nameOf : Nat → L) (labels : List L) (l : L)
    (h : ∀ i < labels.length, nameOf i ≠ l) :
    identifier_to_sample nameOf labels l = l := by
  unfold identifier_to_sample
  have hnone : (List.range labels.length).find?
      (fun i => decide (nameOf i = l)) = none := by
    rw [List.find?_eq_none]
    intro x hx
    simp [h x (List.mem_range.mp hx)]
  rw [hnone]

theorem list_len_two_eq (l : List L) (h : l.length = 2) (d : L) :
    l = [l.getD 0 d, l.getD 1 d] := by
  cases l with
  | nil => simp at h
  | cons a t =>
    cases t with
    | nil => simp at h
    | cons b t2 =>
      cases t2 with
      | nil => rfl
      | cons c t3 => simp at h

theorem degree_single (ns : List L) (r0 r1 l : L) :
    degree ⟨ns, [(r0, r1)]⟩ l = if r0 = l ∨ r1 = l then 1 else 0 := by
  rw [degree_mk, List.countP_cons, List.countP_nil]
  by_cases h : r0 = l ∨ r1 = l <;> simp [h]

/-- **C1.** For every dissimilarity map with at least two pairwise
distinct labels, synthesized-name scheme `nameOf` injective and fresh on
the relevant window, and any variant whose cherry picker returns two
distinct valid row indices and whose update rule removes the two merged
labels and inserts the new one, `DistanceSolver.solve` (before rooting)
produces a tree whose node list is the original sample labels followed
by exactly N−2 synthesized internal names, in which a node has degree 1
(is a leaf) exactly when it is an original sample; the merge loop stops
with exactly two active nodes, and those two are joined directly by a
single edge. -/
theorem solve_produces_tree (V : Variant L) (nameOf : Nat → L) (m0 : DMap L)
    (hN2 : 2 ≤ m0.labels.length) (hno : m0.labels.Nodup)
    (hinj : ∀ j1 j2, j1 < 2 * m0.labels.length → j2 < 2 * m0.labels.length →
      nameOf j1 = nameOf j2 → j1 = j2)
    (hfresh : ∀ j < 2 * m0.labels.length, nameOf j ∉ m0.labels)
    (hch : ∀ (ent : Nat → Nat → Rat) (n : Nat), 2 < n →
      (V.find_cherry ent n).1 < n ∧ (V.find_cherry ent n).2 < n ∧
        (V.find_cherry ent n).1 ≠ (V.find_cherry ent n).2)
    (hup : ∀ (m : DMap L) (a b c : L), a ∈ m.labels → b ∈ m.labels → a ≠ b →
      (V.update_dissimilarity_map m (a, b) c).labels.Perm
        (c :: (m.labels.erase a).erase b)) :
    (solve_unrooted V nameOf m0).nodes = m0.labels ++
        (List.range (m0.labels.length - 2)).map
          (fun j => nameOf (m0.labels.length + j)) ∧
    (∀ l ∈ (solve_unrooted V nameOf m0).nodes,
      (degree (solve_unrooted V nameOf m0) l = 1 ↔ l ∈ m0.labels)) ∧
    (solveLoop V nameOf m0.labels.length (⟨m0.labels, []⟩, m0)).2.labels.length = 2 ∧
    (∀ r0 r1,
      (solveLoop V nameOf m0.labels.length (⟨m0.labels, []⟩, m0)).2.labels = [r0, r1] →
      (solve_unrooted V nameOf m0).edges.countP
        (fun e => decide (e = (r0, r1) ∨ e = (r1, r0))) = 1) := by
  have hInit : SolveInv m0.labels nameOf ⟨m0.labels, []⟩ m0 0 := by
    refine ⟨by simp, hno, by simp, hN2, fun l hl => hl, ?_, ?_, ?_⟩
    · intro s hs
      rw [if_pos hs]
      rfl
    · intro j hj
      exact absurd hj (Nat.not_lt_zero j)
    · intro e he
      cases he
  obtain ⟨k', hInv, hlen2⟩ := solveLoop_inv V nameOf m0.labels hinj hfresh hch hup
    m0.labels.length ⟨m0.labels, []⟩ m0 0 hInit (by omega)
  set N := m0.labels.length with hNdef
  set gm := solveLoop V nameOf N (⟨m0.labels, []⟩, m0) with hgm
  have hk' : k' = N - 2 := by
    have := hInv.labels_len
    omega
  have hk'le : k' + 2 = N := by
    have := hInv.labels_len
    omega
  set r0 := gm.2.labels.getD 0 default with hr0def
  set r1 := gm.2.labels.getD 1 default with hr1def
  have hlabels : gm.2.labels = [r0, r1] := list_len_two_eq _ hlen2 default
  have hr0mem : r0 ∈ gm.2.labels := by rw [hlabels]; simp
  have hr1mem : r1 ∈ gm.2.labels := by rw [hlabels]; simp
  have hr01 : r0 ≠ r1 := by
    have := hInv.labels_nodup
    rw [hlabels] at this
    simpa using List.rel_of_pairwise_cons this (List.mem_singleton.mpr rfl)
  have hmemlab : ∀ x, x ∈ gm.2.labels ↔ (x = r0 ∨ x = r1) := by
    intro x
    rw [hlabels]
    simp
  have hnodes := hInv.nodes_eq
  set g1 : UGraph L := ⟨gm.1.nodes, gm.1.edges ++ [(r0, r1)]⟩ with hg1
  have hnd1 : gm.1.nodes.Nodup := by
    rw [hnodes]
    refine List.Nodup.append hno ?_ ?_
    · refine List.Nodup.map_on ?_ (List.nodup_range k')
      intro x hx y hy hxy
      have hxk := List.mem_range.mp hx
      have hyk := List.mem_range.mp hy
      have := hinj (N + x) (N + y) (by omega) (by omega) hxy
      omega
    · intro a ha hmem
      rcases List.mem_map.mp hmem with ⟨j, hj, rfl⟩
      have hjk := List.mem_range.mp hj
      exact hfresh (N + j) (by omega) ha
  have hedges1 : ∀ e ∈ g1.edges, e.1 ∈ g1.nodes ∧ e.2 ∈ g1.nodes := by
    intro e he
    rcases List.mem_append.mp he with he | he
    · obtain ⟨h1, h2, _⟩ := hInv.edges_ok e he
      exact ⟨h1, h2⟩
    · rcases List.mem_singleton.mp he with rfl
      exact ⟨hInv.labels_sub r0 hr0mem, hInv.labels_sub r1 hr1mem⟩
  have hid : ∀ l ∈ g1.nodes, identifier_to_sample nameOf m0.labels l = l := by
    intro l hl
    apply identifier_to_sample_eq_self
    intro i hiN heq
    rw [hnodes] at hl
    rcases List.mem_append.mp hl with hl | hl
    · exact hfresh i (by omega) (heq ▸ hl)
    · rcases List.mem_map.mp hl with ⟨j, hj, hje⟩
      have hjk := List.mem_range.mp hj
      rw [← hje] at heq
      have := hinj i (N + j) (by omega) (by omega) heq
      omega
  have hrel : relabelGraph (identifier_to_sample nameOf m0.labels) g1 = g1 :=
    relabelGraph_id _ _ hid hnd1 hedges1
  have hsolve : solve_unrooted V nameOf m0 = g1 := hrel
  have hdeg1 : ∀ l, degree g1 l =
      degree gm.1 l + (if r0 = l ∨ r1 = l then 1 else 0) := by
    intro l
    rw [hg1, degree_split, degree_single]
  refine ⟨?_, ?_, hlen2, ?_⟩
  · rw [hsolve]
    show gm.1.nodes = _
    rw [hnodes, hk']
  · intro l hl
    rw [hsolve] at hl ⊢
    replace hl : l ∈ gm.1.nodes := hl
    rw [hnodes] at hl
    rw [hdeg1 l]
    rcases List.mem_append.mp hl with hl | hl
    · have hbase := hInv.sample_deg l hl
      have hdeg : degree gm.1 l + (if r0 = l ∨ r1 = l then 1 else 0) = 1 := by
        by_cases hml : l ∈ gm.2.labels
        · rw [hbase, if_pos hml]
          rcases (hmemlab l).mp hml with rfl | rfl
          · simp
          · simp
        · have hcond : ¬ (r0 = l ∨ r1 = l) := by
            rintro (rfl | rfl)
            · exact hml hr0mem
            · exact hml hr1mem
          rw [hbase, if_neg hml, if_neg hcond]
      rw [hdeg]
      simp [hl]
    · rcases List.mem_map.mp hl with ⟨j, hj, rfl⟩
      have hjk := List.mem_range.mp hj
      rw [hk'] at hjk
      have hbase := hInv.created_deg j (by omega)
      have hdeg : degree gm.1 (nameOf (N + j)) +
          (if r0 = nameOf (N + j) ∨ r1 = nameOf (N + j) then 1 else 0) = 3 := by
        by_cases hml : nameOf (N + j) ∈ gm.2.labels
        · rw [hbase, if_pos hml]
          rcases (hmemlab _).mp hml with h | h
          · rw [if_pos (Or.inl h.symm)]
          · rw [if_pos (Or.inr h.symm)]
        · have hcond : ¬ (r0 = nameOf (N + j) ∨ r1 = nameOf (N + j)) := by
            rintro (h | h)
            · exact hml (h ▸ hr0mem)
            · exact hml (h ▸ hr1mem)
          rw [hbase, if_neg hml, if_neg hcond]
      rw [hdeg]
      constructor
      · intro h
        exact absurd h (by omega)
      · intro h
        exact absurd h (hfresh (N + j) (by omega))
  · intro ra rb hrab
    have hlr := hlabels.symm.trans hrab
    injection hlr with h1 h2
    injection h2 with h2 _
    subst h1
    subst h2
    rw [hsolve]
    show (gm.1.edges ++ [(r0, r1)]).countP _ = 1
    rw [List.countP_append]
    have hold : gm.1.edges.countP
        (fun e => decide (e = (r0, r1) ∨ e = (r1, r0))) = 0 := by
      rw [List.countP_eq_zero]
      intro e he
      obtain ⟨_, _, h3⟩ := hInv.edges_ok e he
      simp only [decide_eq_true_eq]
      rintro (rfl | rfl)
      · exact h3 hr1mem
      · exact h3 hr0mem
    rw [hold]
    simp

/-- **C1 witness.** Three samples 1, 2, 3 with the concrete first-two
cherry variant: the solved graph has nodes `[1, 2, 3, 103]` (one
synthesized node) and sample 1 is a leaf. -/
theorem solve_produces_tree_witness :
    (solve_unrooted exVariant exNameOf ⟨[1, 2, 3], fun _ _ => 0⟩).nodes =
      [1, 2, 3] ++ (List.range 1).map (fun j => exNameOf (3 + j)) ∧
    degree (solve_unrooted exVariant exNameOf ⟨[1, 2, 3], fun _ _ => 0⟩) 1 = 1 := by
  have h := solve_produces_tree exVariant exNameOf ⟨[1, 2, 3], fun _ _ => 0⟩
    (by decide) (by decide)
    (by
      intro j1 j2 h1 h2 he
      simp [exNameOf] at he
      omega)
    (by decide)
    (by
      intro ent n hn
      refine ⟨?_, ?_, ?_⟩
      · show (0, 1).1 < n
        omega
      · show (0, 1).2 < n
        omega
      · show (0, 1).1 ≠ (0, 1).2
        decide)
    (by
      intro m a b c _ _ _
      exact List.Perm.refl _)
  refine ⟨h.1, ?_⟩
  exact (h.2.1 1 (by rw [h.1]; decide)).mpr (by decide)

end Cassiopeia
